import Mathlib

/-
Verification development for the asciidork AsciiDoc processor.

Shallow embedding of the lexer (src/parser/src/lexer/root_lexer.rs), the
token-line predicates (src/parser/src/line.rs), the inline parser
(src/parser/src/tasks/parse_inlines.rs, src/adork/src/parse/inline.rs) and
the evaluator (src/eval/src/eval.rs), together with theorems settling the
frozen claims about them.
-/

namespace Adork

/-! ## Token model (spec section 3, `Token`, `TokenKind`) -/

/-- Closed enumeration of token kinds, from the data model. -/
inductive TokenKind where
  | word
  | digits
  | whitespace
  | newline
  | dots
  | dashes
  | equalSigns
  | forwardSlashes
  | plus
  | star
  | underscore
  | hash
  | backtick
  | tilde
  | caret
  | ampersand
  | lessThan
  | greaterThan
  | openBracket
  | closeBracket
  | openBrace
  | closeBrace
  | openParens
  | closeParens
  | colon
  | semiColon
  | singleQuote
  | doubleQuote
  | comma
  | bang
  | backslash
  | percent
  | pipe
  | macroName
  | uriScheme
  | maybeEmail
  | entity
  | attrRef
  | directive
  | termDelimiter
  | calloutNumber
  | delimiterLine
  | commentLine
  | discardTok
  | eof
  deriving DecidableEq, Repr

/-- Source location `{start, end, include_depth}`; byte offsets into the
source buffer identified by `includeDepth`. -/
structure SourceLocation where
  start : Nat
  stop : Nat
  includeDepth : Nat
  deriving DecidableEq, Repr

/-- `{kind, lexeme, location}`. -/
structure Token where
  kind : TokenKind
  lexeme : String
  loc : SourceLocation
  deriving DecidableEq, Repr

/-- `TokenSpec` from the parser crate: match on kind alone, or on kind plus
exact lexeme length. -/
inductive TokenSpec where
  | kind (k : TokenKind)
  | len (n : Nat) (k : TokenKind)
  deriving DecidableEq, Repr

/-- `Token::satisfies` for a `TokenSpec`. -/
def Token.satisfies (t : Token) : TokenSpec → Bool
  | .kind k => t.kind = k
  | .len n k => t.kind = k && t.lexeme.length = n

/-! ## Line predicates (src/parser/src/line.rs)

A `Line` is the ordered sequence of its (remaining, unconsumed) tokens;
we embed the `Line` token-sequence functions as functions on `List Token`. -/

/-- A line, as its current (front-consumable) token sequence. -/
abbrev Line := List Token

/-- Check that `specs` matches the tokens at the front of `ts`, pairwise.
Helper for `has_seq_at` / `index_of_seq`. -/
def seqMatches : List TokenSpec → List Token → Bool
  | [], _ => true
  | _ :: _, [] => false
  | spec :: specs, t :: ts => t.satisfies spec && seqMatches specs ts

/-- `Line::has_seq_at`: false for an empty spec list or when the line is too
short from `offset`; otherwise each token from `offset` must satisfy the
corresponding spec. -/
def has_seq_at (ts : List Token) (specs : List TokenSpec) (offset : Nat) : Bool :=
  if specs.isEmpty = true ∨ ts.length < offset + specs.length then false
  else seqMatches specs (ts.drop offset)

/-- `Line::starts_with_seq`. -/
def starts_with_seq (ts : List Token) (specs : List TokenSpec) : Bool :=
  has_seq_at ts specs 0

/-- Scanning loop of `Line::index_of_seq`: at each position whose token
satisfies the first spec, return `none` if fewer tokens than specs remain,
else the position if the whole sequence matches there; otherwise advance. -/
def indexOfSeqGo (specs : List TokenSpec) (first : TokenSpec) :
    List Token → Nat → Option Nat
  | [], _ => none
  | t :: rest, i =>
    if t.satisfies first then
      if (t :: rest).length < specs.length then none
      else if seqMatches specs (t :: rest) then some i
      else indexOfSeqGo specs first rest (i + 1)
    else indexOfSeqGo specs first rest (i + 1)

/-- `Line::index_of_seq` (the Rust function asserts a non-empty spec list;
the empty case is modelled as `none`). -/
def index_of_seq (ts : List Token) (specs : List TokenSpec) : Option Nat :=
  match specs.head? with
  | none => none
  | some first =>
    if ts.length < specs.length then none
    else indexOfSeqGo specs first ts 0

/-- `Line::contains_seq`. -/
def contains_seq (ts : List Token) (specs : List TokenSpec) : Bool :=
  (index_of_seq ts specs).isSome

/-- `Line::terminates_constrained_in`: a first occurrence at index 0 is
rejected (a constrained sequence cannot immediately terminate), and an
occurrence at `n > 0` counts only if the token after the sequence start is
not a `Word`. -/
def terminates_constrained_in (ts : List Token) (specs : List TokenSpec) :
    Option Nat :=
  match index_of_seq ts specs with
  | some 0 => none
  | some (n + 1) =>
    match ts.get? (n + 2) with
    | some t => if t.kind = .word then none else some (n + 1)
    | none => some (n + 1)
  | none => none

/-- `Line::terminates_constrained`. -/
def terminates_constrained (ts : List Token) (specs : List TokenSpec) : Bool :=
  (terminates_constrained_in ts specs).isSome

/-- `Line::is_continuous_thru`: true if the kind is found before any
whitespace token. -/
def is_continuous_thru (ts : List Token) (k : TokenKind) : Bool :=
  match ts with
  | [] => false
  | t :: rest =>
    if t.kind = k then true
    else if t.kind = .whitespace then false
    else is_continuous_thru rest k

/-- Loop of `Line::first_nonescaped`: find the first token of kind `k` not
immediately preceded by a backslash token. -/
def firstNonescapedGo (k : TokenKind) : List Token → Option TokenKind → Nat → Option Nat
  | [], _, _ => none
  | t :: rest, prev, i =>
    if t.kind = k ∧ prev ≠ some TokenKind.backslash then some i
    else firstNonescapedGo k rest (some t.kind) (i + 1)

/-- `Line::first_nonescaped` (index only). -/
def first_nonescaped (ts : List Token) (k : TokenKind) : Option Nat :=
  firstNonescapedGo k ts none 0

/-- `Line::contains_nonescaped`. -/
def contains_nonescaped (ts : List Token) (k : TokenKind) : Bool :=
  (first_nonescaped ts k).isSome

/-- `Line::current_is`. -/
def current_is (ts : List Token) (k : TokenKind) : Bool :=
  match ts with
  | [] => false
  | t :: _ => t.kind = k

/-- `Line::continues_inline_macro`: not currently at a colon, continuous to
an open bracket, and containing a non-escaped close bracket. -/
def continues_inline_macro (ts : List Token) : Bool :=
  !current_is ts .colon
    && is_continuous_thru ts .openBracket
    && contains_nonescaped ts .closeBracket

/-- The token kinds at which `Line::consume_url` stops collecting. -/
def urlBreakKind (k : TokenKind) : Bool :=
  k = .whitespace || k = .greaterThan || k = .openBracket

/-- Concatenation of the lexemes of a token list. -/
def lexConcat (ts : List Token) : String :=
  ts.foldl (fun s t => s ++ t.lexeme) ""

/-- Lexeme of the optional `start` token handed to `consume_url`. -/
def startLex : Option Token → String
  | some t => t.lexeme
  | none => ""

/-- True when the token at the given position exists and is a `Dots` token
(`self.tokens.get(num_tokens - 1).is(Dots)` in the source; `is` on a missing
token is false). -/
def tokenAtIsDots (ts : List Token) (i : Nat) : Bool :=
  match ts[i]? with
  | some t => t.kind = TokenKind.dots
  | none => false

/-- The `num_tokens` count of `Line::consume_url` before the trailing-dots
adjustment: tokens up to (not including) the first whitespace / `>` / `[`. -/
def urlNumTokens0 (ts : List Token) : Nat :=
  (ts.takeWhile (fun t => !urlBreakKind t.kind)).length

/-- The `num_tokens` count of `Line::consume_url` after the trailing-dots
adjustment. -/
def urlNumTokens (ts : List Token) : Nat :=
  if 0 < urlNumTokens0 ts ∧ tokenAtIsDots ts (urlNumTokens0 ts - 1) = true then
    urlNumTokens0 ts - 1
  else urlNumTokens0 ts

/-- `Line::consume_url`: count tokens up to (not including) the first
whitespace / `>` / `[`; if the last counted token is a `Dots` token, leave
it behind; the target string is the optional start token's lexeme followed
by the consumed tokens' lexemes, and the consumed tokens are removed from
the line. (Source-location bookkeeping is omitted; no guard or output node
shape depends on it.) -/
def consume_url (start : Option Token) (ts : List Token) :
    String × List Token :=
  (startLex start ++ lexConcat (ts.take (urlNumTokens ts)),
   ts.drop (urlNumTokens ts))

/-! ### Helper lemmas about the sequence search -/

theorem seqMatches_head {spec : TokenSpec} {specs : List TokenSpec}
    {t : Token} {ts : List Token}
    (h : seqMatches (spec :: specs) (t :: ts) = true) :
    t.satisfies spec = true := by
  simp [seqMatches, Bool.and_eq_true] at h
  exact h.1

theorem has_seq_at_zero_length {ts : List Token} {specs : List TokenSpec}
    (h : has_seq_at ts specs 0 = true) :
    specs.length ≤ ts.length := by
  unfold has_seq_at at h
  split at h
  · exact absurd h (by simp)
  · rename_i hcond
    push_neg at hcond
    omega

theorem has_seq_at_zero_matches {ts : List Token} {specs : List TokenSpec}
    (h : has_seq_at ts specs 0 = true) :
    seqMatches specs ts = true := by
  unfold has_seq_at at h
  split at h
  · exact absurd h (by simp)
  · simpa using h

theorem has_seq_at_zero_nonempty_specs {ts : List Token} {specs : List TokenSpec}
    (h : has_seq_at ts specs 0 = true) : specs ≠ [] := by
  unfold has_seq_at at h
  split at h
  · exact absurd h (by simp)
  · rename_i hcond
    push_neg at hcond
    intro hnil
    exact hcond.1 (by simp [hnil])

/-- If the stop sequence matches at index 0, `index_of_seq` returns index 0. -/
theorem index_of_seq_zero {ts : List Token} {specs : List TokenSpec}
    (h : has_seq_at ts specs 0 = true) :
    index_of_seq ts specs = some 0 := by
  have hne := has_seq_at_zero_nonempty_specs h
  have hlen := has_seq_at_zero_length h
  have hmatch := has_seq_at_zero_matches h
  match hspecs : specs, hts : ts with
  | [], _ => exact absurd rfl hne
  | spec :: specs', [] =>
    subst hspecs hts
    simp at hlen
  | spec :: specs', t :: ts' =>
    subst hspecs hts
    have hsat : t.satisfies spec = true := seqMatches_head hmatch
    unfold index_of_seq
    simp only [List.head?]
    rw [if_neg (Nat.not_lt.mpr hlen)]
    unfold indexOfSeqGo
    rw [if_pos hsat, if_neg (Nat.not_lt.mpr hlen), if_pos hmatch]

/-! ## Claim C4 -/

/-- C4: for every line and every non-empty constrained stop-token sequence,
when the closing delimiter sequence occurs at index 0 of the remaining line
the terminates-constrained test fails (`terminates_constrained_in` is `none`
and `terminates_constrained` is false), so a constrained opening can never
immediately close into an empty span. -/
theorem terminates_constrained_fails_at_zero (ts : List Token)
    (specs : List TokenSpec) (h : has_seq_at ts specs 0 = true) :
    terminates_constrained_in ts specs = none
      ∧ terminates_constrained ts specs = false := by
  have h0 := index_of_seq_zero h
  constructor
  · unfold terminates_constrained_in
    rw [h0]
  · unfold terminates_constrained terminates_constrained_in
    rw [h0]
    rfl

/-- Default location for concrete example tokens. -/
def loc0 : SourceLocation := ⟨0, 0, 0⟩

/-- Build a token with an irrelevant location. -/
def tk (k : TokenKind) (s : String) : Token := ⟨k, s, loc0⟩

/-- Witness for C4: for the remaining line of `foo __bar` after the first
underscore is consumed (`_bar`), the stop sequence `[Underscore]` occurs at
index 0, and the terminates-constrained test fails. -/
theorem terminates_constrained_fails_at_zero_witness :
    has_seq_at [tk .underscore "_", tk .word "bar"] [.kind .underscore] 0 = true
      ∧ terminates_constrained_in [tk .underscore "_", tk .word "bar"]
          [.kind .underscore] = none
      ∧ terminates_constrained [tk .underscore "_", tk .word "bar"]
          [.kind .underscore] = false := by
  refine ⟨by decide, ?_, ?_⟩
  · exact (terminates_constrained_fails_at_zero _ _ (by decide)).1
  · exact (terminates_constrained_fails_at_zero _ _ (by decide)).2

/-! ## Claim C3 -/

/-- C3 counterexample: for the token line following the scheme token of
`See https://example.com,`, the auto-link URL consumer keeps the trailing
comma inside the URL target (and consumes it), whereas the claim predicts
the comma is excluded from the target and left on the line. -/
theorem consume_url_keeps_trailing_comma :
    consume_url (some (tk .uriScheme "https://"))
        [tk .word "example", tk .dots ".", tk .word "com", tk .comma ","]
      = ("https://example.com,", [])
    ∧ ("https://example.com,", ([] : List Token))
        ≠ ("https://example.com", [tk .comma ","]) :=
  ⟨by decide, by decide⟩

/-- C3 (amended): when the inline parser auto-links a bare URL, only a
trailing `Dots` (`.`) token is excluded from the URL target: if the run of
tokens before the first whitespace / `>` / `[` ends in a `Dots` token, that
token is excluded from the target and left on the line, and otherwise (in
particular for a trailing `,`, `;` or `:` token) the full run — trailing
punctuation included — becomes the target. -/
theorem consume_url_trailing_dots_excluded (start : Option Token)
    (ts : List Token) (t : Token)
    (hlast : (ts.takeWhile (fun tok => !urlBreakKind tok.kind)).getLast? = some t) :
    (t.kind = .dots →
      consume_url start ts =
        (startLex start
            ++ lexConcat (ts.takeWhile (fun tok => !urlBreakKind tok.kind)).dropLast,
         ts.drop ((ts.takeWhile (fun tok => !urlBreakKind tok.kind)).length - 1)))
    ∧ (t.kind ≠ .dots →
      consume_url start ts =
        (startLex start ++ lexConcat (ts.takeWhile (fun tok => !urlBreakKind tok.kind)),
         ts.drop (ts.takeWhile (fun tok => !urlBreakKind tok.kind)).length)) := by
  set u := ts.takeWhile (fun tok => !urlBreakKind tok.kind) with hu
  have hpre : u = ts.take u.length :=
    List.prefix_iff_eq_take.mp (hu ▸ List.takeWhile_prefix _)
  have hne : u ≠ [] := by
    intro h
    rw [h] at hlast
    simp at hlast
  have hpos : 0 < u.length := List.length_pos.mpr hne
  have hget : ts[u.length - 1]? = some t := by
    have h1 : u[u.length - 1]? = some t := by
      rw [← List.getLast?_eq_getElem?]
      exact hlast
    calc ts[u.length - 1]?
        = (ts.take u.length)[u.length - 1]? :=
          (List.getElem?_take_of_lt (by omega)).symm
      _ = u[u.length - 1]? := by rw [← hpre]
      _ = some t := h1
  have hn0 : urlNumTokens0 ts = u.length := by
    unfold urlNumTokens0
    rw [← hu]
  constructor
  · intro hdots
    have hcond : urlNumTokens ts = u.length - 1 := by
      unfold urlNumTokens
      rw [hn0]
      rw [if_pos ⟨hpos, by unfold tokenAtIsDots; rw [hget]; simp [hdots]⟩]
    have htake : ts.take (u.length - 1) = u.dropLast := by
      have h2 : (ts.take u.length).take (u.length - 1) = ts.take (u.length - 1) := by
        rw [List.take_take, min_eq_left (by omega)]
      rw [← h2, ← hpre, List.dropLast_eq_take]
    unfold consume_url
    rw [hcond, htake]
  · intro hdots
    have hcond : urlNumTokens ts = u.length := by
      unfold urlNumTokens
      rw [hn0]
      rw [if_neg]
      rintro ⟨-, hc⟩
      unfold tokenAtIsDots at hc
      rw [hget] at hc
      simp at hc
      exact hdots hc
    have htake : ts.take u.length = u := hpre.symm
    unfold consume_url
    rw [hcond, htake]

/-- Witness for C3 (amended), instantiating both cases: for
`See https://example.com.` the trailing dot is excluded from the URL target
and stays on the line, and for `See https://example.com,` the trailing comma
is included in the target. -/
theorem consume_url_trailing_dots_excluded_witness :
    consume_url (some (tk .uriScheme "https://"))
        [tk .word "example", tk .dots ".", tk .word "com", tk .dots "."]
      = ("https://example.com", [tk .dots "."])
    ∧ consume_url (some (tk .uriScheme "https://"))
        [tk .word "example", tk .dots ".", tk .word "com", tk .comma ","]
      = ("https://example.com,", []) := by
  constructor
  · have h := (consume_url_trailing_dots_excluded (some (tk .uriScheme "https://"))
        [tk .word "example", tk .dots ".", tk .word "com", tk .dots "."]
        (tk .dots ".") (by decide)).1 (by decide)
    exact h.trans (by decide)
  · have h := (consume_url_trailing_dots_excluded (some (tk .uriScheme "https://"))
        [tk .word "example", tk .dots ".", tk .word "com", tk .comma ","]
        (tk .comma ",") (by decide)).2 (by decide)
    exact h.trans (by decide)

/-! ## Inline AST (spec section 3, `Inline`)

One shared inline node type serving the inline-parser embedding and the
evaluator embedding. Source locations on nodes are omitted: no parser guard
or evaluator branch reads them, so they do not affect node structure. -/

inductive CurlyKind where
  | leftDouble
  | rightDouble
  | leftSingle
  | rightSingle
  | legacyImplicitApostrophe
  deriving DecidableEq, Repr

inductive QuoteKind where
  | single
  | double
  deriving DecidableEq, Repr

inductive SpecialCharKind where
  | ampersand
  | lessThan
  | greaterThan
  deriving DecidableEq, Repr

inductive UrlScheme where
  | https
  | http
  | ftp
  | irc
  | file
  | mailto
  deriving DecidableEq, Repr

/-- Inline AST nodes (the variants exercised by the embedded code paths). -/
inductive Inline where
  | text (s : String)
  | joiningNewline
  | bold (children : List Inline)
  | italic (children : List Inline)
  | mono (children : List Inline)
  | highlight (children : List Inline)
  | subscript (children : List Inline)
  | superscript (children : List Inline)
  | inlinePassthrough (children : List Inline)
  | litMono (s : String)
  | curly (k : CurlyKind)
  | quoted (k : QuoteKind) (children : List Inline)
  | specialChar (k : SpecialCharKind)
  | multiCharWhitespace (s : String)
  | discarded
  | lineBreak
  | link (scheme : UrlScheme) (target : String)
  | xref (target : String) (linktext : Option (List Inline))

/-! ## Evaluator xref resolution (src/eval/src/eval.rs) -/

/-- An entry of the anchor registry: optional `reftext` inlines plus title
inlines. -/
structure Anchor where
  reftext : Option (List Inline)
  title : List Inline

/-- The anchor registry: an (insertion-ordered) id-keyed association list. -/
abbrev AnchorMap := List (String × Anchor)

/-- Modelled from the spec: `utils::xref::get_id` lives in the
asciidork_backend crate (not under src/); per the spec an xref target is
`id`, `id#`, or `file#id`, so the id is the part after a `#` when one is
present and non-final, the part before a trailing `#`, and the whole target
otherwise. -/
def getId (target : String) : String :=
  match target.toList.findIdx? (fun c => c = '#') with
  | none => target
  | some i =>
    if i + 1 = target.toList.length then String.mk (target.toList.take i)
    else String.mk (target.toList.drop (i + 1))

/-- Outcome of the evaluator's xref link-text selection: either inline
nodes to render, or the missing-xref fallback (rendered as `[id]`). -/
inductive XrefRes where
  | nodes (text : List Inline)
  | missing

/-- The link-text selection of the `Xref` arm of `eval_inline` (eval.rs
lines 377–395), for the non-re-entrant path: look the registry up at
`get_id(target)`; map the found anchor to
`reftext.unwrap_or(linktext.unwrap_or(title))`; keep that choice only when
it is non-empty; otherwise render the xref's `linktext` when present, and
the missing-xref fallback otherwise. -/
def resolveXrefText (anchors : AnchorMap) (target : String)
    (linktext : Option (List Inline)) : XrefRes :=
  match (anchors.lookup (getId target)).map
      (fun anchor => anchor.reftext.getD (linktext.getD anchor.title)) with
  | some chosen =>
    if chosen.isEmpty then
      match linktext with
      | some t => .nodes t
      | none => .missing
    else .nodes chosen
  | none =>
    match linktext with
    | some t => .nodes t
    | none => .missing

/-! ### Fueled evaluator (eval_inline / children traversal)

The `resolving_xref` boolean cell of the evaluation context is threaded
explicitly. Fuel bounds the recursion depth; `none` means the evaluation
did not complete within the given fuel. On an `Xref` node the code performs
`resolving_xref.replace(true)`: if the old value was true the node renders
as a missing xref, otherwise the selected text is evaluated recursively;
afterwards (line 396) the cell is unconditionally reset to `false`. -/

mutual

/-- `eval_inline` on one node; returns the `resolving_xref` value after the
node, or `none` when fuel is exhausted. -/
def evalInline (anchors : AnchorMap) : Nat → Bool → Inline → Option Bool
  | 0, _, _ => none
  | fuel + 1, flag, i =>
    match i with
    | .text _ => some flag
    | .joiningNewline => some flag
    | .bold children => evalInlines anchors fuel flag children
    | .italic children => evalInlines anchors fuel flag children
    | .mono children => evalInlines anchors fuel flag children
    | .highlight children => evalInlines anchors fuel flag children
    | .subscript children => evalInlines anchors fuel flag children
    | .superscript children => evalInlines anchors fuel flag children
    | .inlinePassthrough children => evalInlines anchors fuel flag children
    | .quoted _ children => evalInlines anchors fuel flag children
    | .litMono _ => some flag
    | .curly _ => some flag
    | .specialChar _ => some flag
    | .multiCharWhitespace _ => some flag
    | .discarded => some flag
    | .lineBreak => some flag
    | .link _ _ => some flag
    | .xref target linktext =>
      if flag then some false
      else
        match resolveXrefText anchors target linktext with
        | .missing => some false
        | .nodes text => (evalInlines anchors fuel true text).map (fun _ => false)
  termination_by structural fuel => fuel

/-- Sequential evaluation of a node list (`children.iter().for_each`),
threading the `resolving_xref` cell. -/
def evalInlines (anchors : AnchorMap) : Nat → Bool → List Inline → Option Bool
  | 0, _, _ => none
  | _ + 1, flag, [] => some flag
  | fuel + 1, flag, i :: rest =>
    match evalInline anchors fuel flag i with
    | none => none
    | some flag1 => evalInlines anchors fuel flag1 rest
  termination_by structural fuel => fuel

end

/-! ## Claim C1 -/

/-- The link-text choice asserted by claim C1, read literally: the anchor's
reftext when the target id is registered and the anchor has one, else the
xref's explicit link text when present, else the anchor's title inlines;
the `[id]` fallback only when the id is unregistered and the xref carries
no link text. -/
def xrefClaimedTextOriginal (anchors : AnchorMap) (target : String)
    (linktext : Option (List Inline)) : XrefRes :=
  match anchors.lookup (getId target) with
  | some anchor =>
    match anchor.reftext with
    | some r => .nodes r
    | none =>
      match linktext with
      | some t => .nodes t
      | none => .nodes anchor.title
  | none =>
    match linktext with
    | some t => .nodes t
    | none => .missing

/-- The link-text choice of claim C1 as amended: nonempty reftext first;
else the xref's link text when present; else, when the anchor has no
reftext at all and a nonempty title, the title; in every other case —
including a registered anchor whose reftext/title are absent or empty —
the missing-xref fallback. -/
def xrefClaimedTextAmended (anchors : AnchorMap) (target : String)
    (linktext : Option (List Inline)) : XrefRes :=
  match anchors.lookup (getId target) with
  | some anchor =>
    match anchor.reftext with
    | some r =>
      if r.isEmpty then
        match linktext with
        | some t => .nodes t
        | none => .missing
      else .nodes r
    | none =>
      match linktext with
      | some t => .nodes t
      | none => if anchor.title.isEmpty then .missing else .nodes anchor.title
  | none =>
    match linktext with
    | some t => .nodes t
    | none => .missing

/-- A registry holding one inline anchor `[[step-1]]`: no reftext, empty
title. -/
def emptyTitleAnchors : AnchorMap := [("step-1", ⟨none, []⟩)]

/-- C1 counterexample: for a registered anchor with no reftext and an empty
title (an inline anchor `[[step-1]]`) and an xref `<<step-1>>` with no link
text, the evaluator renders the missing-xref fallback `[step-1]` even
though the id is registered, while the claim's priority order predicts the
anchor's title inlines. (The repo's own test `inline_anchor_xrefs` expects
`<a href="#step-1">[step-1]</a>` for exactly this input.) -/
theorem resolveXrefText_registered_yet_missing :
    resolveXrefText emptyTitleAnchors "step-1" none = XrefRes.missing
    ∧ xrefClaimedTextOriginal emptyTitleAnchors "step-1" none
        = XrefRes.nodes []
    ∧ XrefRes.missing ≠ XrefRes.nodes [] := by
  refine ⟨rfl, rfl, ?_⟩
  intro h
  cases h

/-- C1 (amended): outside of a re-entrant xref resolution, the evaluator's
link-text choice follows this priority: the anchor's reftext when the id is
registered and the reftext is present and nonempty; else the xref's
explicit link text when present; else the anchor's title inlines when the
anchor has no reftext and the title is nonempty; in every remaining case
(unregistered id with no link text, and also a registered anchor whose
reftext and title are missing-or-empty with no link text) the missing-xref
fallback `[id]`. -/
theorem resolveXrefText_priority (anchors : AnchorMap) (target : String)
    (linktext : Option (List Inline)) :
    resolveXrefText anchors target linktext
      = xrefClaimedTextAmended anchors target linktext := by
  unfold resolveXrefText xrefClaimedTextAmended
  cases hLookup : anchors.lookup (getId target) with
  | none => simp
  | some anchor =>
    cases hReftext : anchor.reftext with
    | some r =>
      cases hEmpty : r.isEmpty with
      | true => simp [hReftext, hEmpty]
      | false => simp [hReftext, hEmpty]
    | none =>
      cases linktext with
      | some t =>
        cases hEmpty : t.isEmpty with
        | true => simp [hReftext, hEmpty]
        | false => simp [hReftext, hEmpty]
      | none =>
        cases hEmpty : anchor.title.isEmpty with
        | true => simp [hReftext, hEmpty]
        | false => simp [hReftext, hEmpty]

/-! ## Claim C2 -/

/-- A registry in which anchor `a`'s reftext holds two shorthand xrefs,
`<<b>>` followed by `<<a>>`. -/
def cycleAnchors : AnchorMap :=
  [("a", ⟨some [.xref "b" none, .xref "a" none], [.text "Section A"]⟩),
   ("b", ⟨none, [.text "Section B"]⟩)]

/-- C2 is a code bug: evaluating the xref `<<a>>` against `cycleAnchors`
never terminates, for any fuel bound. Resolving `a`'s reftext evaluates the
inner `<<b>>` as a guarded missing xref, but line 396 then resets the
re-entrancy cell to `false` unconditionally, so the second inner `<<a>>` is
resolved through the registry again, re-entering the identical state. -/
theorem evalInline_xref_cycle_diverges :
    ∀ fuel : Nat,
      evalInline cycleAnchors fuel false (.xref "a" none) = none := by
  intro fuel
  induction fuel using Nat.strong_induction_on with
  | _ n ih =>
    match n with
    | 0 => rfl
    | 1 => rfl
    | 2 => rfl
    | (k + 3) =>
      have hk : evalInline cycleAnchors k false (.xref "a" none) = none :=
        ih k (by omega)
      have hstep : evalInline cycleAnchors (k + 3) false (.xref "a" none)
          = (match evalInline cycleAnchors k false (.xref "a" none) with
             | none => none
             | some flag1 => evalInlines cycleAnchors k flag1 []).map
              (fun _ => false) := rfl
      rw [hstep, hk]
      rfl

/-! ## Text commit and inline merging (claim C7)

`Text::commit_inlines` (src/adork/src/parse/inline.rs lines 352–360) and
`Parser::merge_inlines` (src/parser/src/tasks/parse_inlines.rs lines
498–514, identical to `merge_appending` in the adork crate). -/

/-- `commit_inlines`: an empty accumulator commits nothing; otherwise the
accumulated text is appended to a trailing `Text` node when one is already
last, and pushed as a new `Text` node otherwise. -/
def commit_inlines (s : String) (inlines : List Inline) : List Inline :=
  if s = "" then inlines
  else
    match inlines.getLast? with
    | some (.text t) => inlines.dropLast ++ [Inline.text (t ++ s)]
    | _ => inlines ++ [Inline.text s]

/-- The trailing `match (append, a.last_mut())` step of `merge_inlines`:
with a suffix string, append it into a trailing `Text` node when there is
one, push it as a fresh `Text` node otherwise; with no suffix, no-op. -/
def mergeFinish (merged : List Inline) (app : Option String) : List Inline :=
  match app with
  | none => merged
  | some s =>
    match merged.getLast? with
    | some (.text t) => merged.dropLast ++ [Inline.text (t ++ s)]
    | _ => merged ++ [Inline.text s]

/-- `merge_inlines`: coalesce `a`'s trailing `Text` with `b`'s leading
`Text` when both exist, append the rest of `b`, then append the optional
suffix string (into a trailing `Text` node when possible). -/
def merge_inlines (a b : List Inline) (app : Option String) : List Inline :=
  match a.getLast?, b.head? with
  | some (.text ta), some (.text tb) =>
    mergeFinish (a.dropLast ++ [Inline.text (ta ++ tb)] ++ b.tail) app
  | _, _ => mergeFinish (a ++ b) app

/-- Is the node a `Text` node? -/
def isText : Inline → Bool
  | .text _ => true
  | _ => false

/-- No `Text` node of the list carries the empty string. -/
def noEmptyText (l : List Inline) : Prop :=
  ∀ s : String, Inline.text s ∈ l → s ≠ ""

/-- No two adjacent nodes of the list are both `Text` nodes. -/
def noAdjacentText (l : List Inline) : Prop :=
  List.Chain' (fun a b => isText a = false ∨ isText b = false) l

theorem getLast?_mem' {α : Type} {l : List α} {a : α}
    (h : l.getLast? = some a) : a ∈ l := by
  rw [List.getLast?_eq_getElem?] at h
  exact List.getElem?_mem h

theorem isText_true_iff {x : Inline} :
    isText x = true ↔ ∃ s, x = Inline.text s := by
  cases x <;> simp [isText]

theorem append_ne_empty_left {s t : String} (h : s ≠ "") : s ++ t ≠ "" := by
  intro he
  apply h
  apply String.ext
  have hd : (s ++ t).data = s.data ++ t.data := String.data_append s t
  have h2 : (s ++ t).data = [] := by rw [he]
  rw [hd] at h2
  simp [(List.append_eq_nil.mp h2).1]

theorem append_ne_empty_right {s t : String} (h : t ≠ "") : s ++ t ≠ "" := by
  intro he
  apply h
  apply String.ext
  have hd : (s ++ t).data = s.data ++ t.data := String.data_append s t
  have h2 : (s ++ t).data = [] := by rw [he]
  rw [hd] at h2
  simp [(List.append_eq_nil.mp h2).2]

theorem noEmptyText_sublist {l m : List Inline} (h : noEmptyText l)
    (hm : List.Sublist m l) : noEmptyText m :=
  fun s hs => h s (hm.subset hs)

theorem noEmptyText_snoc {l : List Inline} {x : Inline}
    (hl : noEmptyText l) (hx : ∀ s, x = Inline.text s → s ≠ "") :
    noEmptyText (l ++ [x]) := by
  intro s hs
  rcases List.mem_append.mp hs with hmem | hmem
  · exact hl s hmem
  · simp at hmem
    exact hx s hmem.symm

theorem noAdjacentText_snoc {l : List Inline} {x : Inline}
    (hl : noAdjacentText l)
    (hj : ∀ y, l.getLast? = some y → isText y = false ∨ isText x = false) :
    noAdjacentText (l ++ [x]) := by
  refine List.chain'_append.mpr ⟨hl, List.chain'_singleton x, ?_⟩
  intro a ha y hy
  simp at hy
  subst hy
  exact hj a (Option.mem_def.mp ha)

/-- In a list with no adjacent `Text` nodes ending in a `Text` node, the
element before the last (the last of `dropLast`) is not a `Text` node. -/
theorem dropLast_getLast?_not_text {l : List Inline} {t : String}
    (h2 : noAdjacentText l) (hl : l.getLast? = some (.text t)) :
    ∀ y, l.dropLast.getLast? = some y → isText y = false := by
  have hne : l ≠ [] := by
    intro h
    rw [h] at hl
    cases hl
  have hlast : l.getLast hne = Inline.text t := by
    have := List.getLast?_eq_getLast l hne
    rw [this] at hl
    exact Option.some.inj hl
  have hsplit : l.dropLast ++ [Inline.text t] = l := by
    rw [← hlast]
    exact List.dropLast_append_getLast hne
  rw [noAdjacentText, ← hsplit] at h2
  have hjunction := (List.chain'_append.mp h2).2.2
  intro y hy
  have := hjunction y (Option.mem_def.mpr hy) (Inline.text t) (by simp)
  rcases this with h | h
  · exact h
  · simp [isText] at h

/-- Replacing a trailing `Text t` node by `Text (t ++ s)` preserves both
invariants, provided `t ++ s` is nonempty. -/
theorem replaceLast_text_preserves {l : List Inline} {t s : String}
    (hl : l.getLast? = some (.text t)) (hts : t ++ s ≠ "")
    (h1 : noEmptyText l) (h2 : noAdjacentText l) :
    noEmptyText (l.dropLast ++ [Inline.text (t ++ s)])
      ∧ noAdjacentText (l.dropLast ++ [Inline.text (t ++ s)]) := by
  constructor
  · refine noEmptyText_snoc (noEmptyText_sublist h1 (List.dropLast_sublist l)) ?_
    intro u hu
    cases hu
    exact hts
  · have hdrop : noAdjacentText l.dropLast := by
      rw [noAdjacentText, List.dropLast_eq_take]
      exact h2.take _
    refine noAdjacentText_snoc hdrop ?_
    intro y hy
    exact Or.inl (dropLast_getLast?_not_text h2 hl y hy)

/-- Appending a fresh nonempty `Text` node after a non-`Text` (or absent)
last element preserves both invariants. -/
theorem snoc_text_preserves {l : List Inline} {s : String} (hs : s ≠ "")
    (h1 : noEmptyText l) (h2 : noAdjacentText l)
    (hlast : ∀ y, l.getLast? = some y → isText y = false) :
    noEmptyText (l ++ [Inline.text s]) ∧ noAdjacentText (l ++ [Inline.text s]) := by
  constructor
  · refine noEmptyText_snoc h1 ?_
    intro u hu
    cases hu
    exact hs
  · exact noAdjacentText_snoc h2 (fun y hy => Or.inl (hlast y hy))

theorem commit_inlines_preserves (s : String) (l : List Inline)
    (h1 : noEmptyText l) (h2 : noAdjacentText l) :
    noEmptyText (commit_inlines s l) ∧ noAdjacentText (commit_inlines s l) := by
  unfold commit_inlines
  split
  · exact ⟨h1, h2⟩
  · rename_i hs
    split
    · rename_i t hl
      exact replaceLast_text_preserves hl (append_ne_empty_right hs) h1 h2
    · rename_i hnotext
      refine snoc_text_preserves hs h1 h2 ?_
      intro y hy
      by_contra hcontra
      have hyt : isText y = true := by
        cases hIs : isText y
        · exact absurd hIs hcontra
        · rfl
      rcases isText_true_iff.mp hyt with ⟨u, rfl⟩
      exact hnotext u hy

theorem mergeFinish_preserves (merged : List Inline) (app : Option String)
    (h1 : noEmptyText merged) (h2 : noAdjacentText merged)
    (happ : app ≠ some "") :
    noEmptyText (mergeFinish merged app) ∧ noAdjacentText (mergeFinish merged app) := by
  cases app with
  | none => exact ⟨h1, h2⟩
  | some s =>
    have hs : s ≠ "" := by
      intro h
      exact happ (by rw [h])
    simp only [mergeFinish]
    split
    · rename_i t hlast
      have ht : t ≠ "" := h1 t (getLast?_mem' hlast)
      exact replaceLast_text_preserves hlast (append_ne_empty_left ht) h1 h2
    · rename_i hnotext
      refine snoc_text_preserves hs h1 h2 ?_
      intro y hy
      by_contra hcontra
      have hyt : isText y = true := by
        cases hIs : isText y
        · exact absurd hIs hcontra
        · rfl
      rcases isText_true_iff.mp hyt with ⟨u, rfl⟩
      exact hnotext u hy

theorem merge_inlines_preserves (a b : List Inline) (app : Option String)
    (ha1 : noEmptyText a) (ha2 : noAdjacentText a)
    (hb1 : noEmptyText b) (hb2 : noAdjacentText b)
    (happ : app ≠ some "") :
    noEmptyText (merge_inlines a b app) ∧ noAdjacentText (merge_inlines a b app) := by
  unfold merge_inlines
  split
  · rename_i ta tb ha hb
    have hta : ta ≠ "" := ha1 ta (getLast?_mem' ha)
    have hA1 := replaceLast_text_preserves (s := tb) ha
      (append_ne_empty_left (t := tb) hta) ha1 ha2
    obtain ⟨c, rest, rfl⟩ : ∃ c rest, b = c :: rest := by
      cases b with
      | nil => cases hb
      | cons c rest => exact ⟨c, rest, rfl⟩
    have hc : c = Inline.text tb := by
      simpa using hb
    subst hc
    have hbtail1 : noEmptyText (Inline.text tb :: rest).tail :=
      noEmptyText_sublist hb1 (List.tail_sublist _)
    have hbtail2 : noAdjacentText rest := (List.chain'_cons'.mp hb2).2
    have hbhead : ∀ y ∈ rest.head?, isText y = false := by
      intro y hy
      rcases (List.chain'_cons'.mp hb2).1 y hy with h | h
      · simp [isText] at h
      · exact h
    refine mergeFinish_preserves _ app ?_ ?_ happ
    · intro u hu
      rcases List.mem_append.mp hu with hmem | hmem
      · exact hA1.1 u hmem
      · exact hbtail1 u hmem
    · refine List.chain'_append.mpr ⟨hA1.2, hbtail2, ?_⟩
      intro x hx y hy
      exact Or.inr (hbhead y hy)
  · rename_i hnot
    refine mergeFinish_preserves _ app ?_ ?_ happ
    · intro u hu
      rcases List.mem_append.mp hu with hmem | hmem
      · exact ha1 u hmem
      · exact hb1 u hmem
    · refine List.chain'_append.mpr ⟨ha2, hb2, ?_⟩
      intro x hx y hy
      by_contra hcontra
      push_neg at hcontra
      have hxt : isText x = true := by
        cases hIs : isText x
        · exact absurd hIs hcontra.1
        · rfl
      have hyt : isText y = true := by
        cases hIs : isText y
        · exact absurd hIs hcontra.2
        · rfl
      rcases isText_true_iff.mp hxt with ⟨u, rfl⟩
      rcases isText_true_iff.mp hyt with ⟨v, rfl⟩
      exact hnot u v (Option.mem_def.mp hx) (Option.mem_def.mp hy)

/-! ## Claim C7 -/

/-- C7: committing accumulated text and merging inline lists preserve the
inline-parser output invariants: (a) a commit introduces no empty `Text`
node and no adjacent `Text` pair — in particular, when the last emitted
inline is already a `Text` node the commit appends to it in place, leaving
the node count unchanged rather than creating a second adjacent `Text`
node; and (b) `merge_inlines` (with a non-empty optional suffix) likewise
preserves both invariants. -/
theorem commit_and_merge_keep_invariants (s t : String) (l a b : List Inline)
    (app : Option String)
    (hl1 : noEmptyText l) (hl2 : noAdjacentText l)
    (ha1 : noEmptyText a) (ha2 : noAdjacentText a)
    (hb1 : noEmptyText b) (hb2 : noAdjacentText b)
    (happ : app ≠ some "") :
    (noEmptyText (commit_inlines s l) ∧ noAdjacentText (commit_inlines s l))
    ∧ (s ≠ "" → l.getLast? = some (.text t) →
        commit_inlines s l = l.dropLast ++ [Inline.text (t ++ s)]
          ∧ (commit_inlines s l).length = l.length)
    ∧ (noEmptyText (merge_inlines a b app)
        ∧ noAdjacentText (merge_inlines a b app)) := by
  refine ⟨commit_inlines_preserves s l hl1 hl2, ?_,
    merge_inlines_preserves a b app ha1 ha2 hb1 hb2 happ⟩
  intro hs hlast
  have hne : l ≠ [] := by
    intro h
    rw [h] at hlast
    cases hlast
  have heq : commit_inlines s l = l.dropLast ++ [Inline.text (t ++ s)] := by
    unfold commit_inlines
    rw [if_neg hs, hlast]
  refine ⟨heq, ?_⟩
  rw [heq]
  have := List.length_dropLast l
  have : 0 < l.length := List.length_pos.mpr hne
  simp [List.length_dropLast]
  omega

/-- Witness for C7 at concrete inputs: committing `"bar"` onto a list
ending in `Text "foo"` keeps both invariants and appends in place (node
count stays 2), and merging `[Bold [], Text "x"]` with
`[Text "y", Italic []]` keeps the no-adjacent-text invariant. -/
theorem commit_and_merge_keep_invariants_witness :
    noEmptyText (commit_inlines "bar" [Inline.bold [], Inline.text "foo"])
    ∧ noAdjacentText (merge_inlines [Inline.bold [], Inline.text "x"]
        [Inline.text "y", Inline.italic []] none)
    ∧ (commit_inlines "bar" [Inline.bold [], Inline.text "foo"]).length = 2 := by
  have hfoo1 : noEmptyText [Inline.bold [], Inline.text "foo"] := by
    intro s hs
    simp at hs
    subst hs
    decide
  have hfoo2 : noAdjacentText [Inline.bold [], Inline.text "foo"] := by
    simp [noAdjacentText, isText]
  have hx1 : noEmptyText [Inline.bold [], Inline.text "x"] := by
    intro s hs
    simp at hs
    subst hs
    decide
  have hx2 : noAdjacentText [Inline.bold [], Inline.text "x"] := by
    simp [noAdjacentText, isText]
  have hy1 : noEmptyText [Inline.text "y", Inline.italic []] := by
    intro s hs
    simp at hs
    subst hs
    decide
  have hy2 : noAdjacentText [Inline.text "y", Inline.italic []] := by
    simp [noAdjacentText, isText]
  have H := commit_and_merge_keep_invariants "bar" "foo"
    [Inline.bold [], Inline.text "foo"]
    [Inline.bold [], Inline.text "x"] [Inline.text "y", Inline.italic []]
    none hfoo1 hfoo2 hx1 hx2 hy1 hy2 (by simp)
  refine ⟨H.1.1, H.2.2.2, ?_⟩
  rw [(H.2.1 (by decide) (by rfl)).1]
  rfl

/-! ## Lexer source stack (src/parser/src/lexer/root_lexer.rs)

Bytes are modelled as `Nat` (0–255). The per-source byte scanner
(`SourceLexer`, src/parser/src/lexer/source_lexer.rs) is not under src/ and
is modelled from the spec below. -/

/-- Identifier of a source buffer (`SourceFile`). -/
inductive SourceFile where
  | tmp
  | src (name : String)
  deriving DecidableEq, Repr

/-- Modelled from the spec: the state of the per-source byte scanner
`SourceLexer` (source_lexer.rs is not under src/): source bytes, current
byte position, location offset (set by `adjust_offset`), per-source
leveloffset and max include depth, and the source file tag. -/
structure SourceLexer where
  bytes : List Nat
  pos : Nat
  offset : Nat
  leveloffset : Int
  maxIncludeDepth : Option Nat
  file : SourceFile
  deriving DecidableEq, Repr

instance : Inhabited SourceLexer := ⟨⟨[], 0, 0, 0, none, .tmp⟩⟩

/-- ASCII letter or non-ASCII (Unicode continuation) byte. -/
def wordByte (b : Nat) : Bool :=
  (65 ≤ b ∧ b ≤ 90) ∨ (97 ≤ b ∧ b ≤ 122) ∨ 128 ≤ b

def digitByte (b : Nat) : Bool := 48 ≤ b ∧ b ≤ 57

/-- Space or tab. -/
def spaceByte (b : Nat) : Bool := b = 32 ∨ b = 9

/-- Single-byte punctuation kinds of the token alphabet. -/
def singleKind (b : Nat) : TokenKind :=
  match b with
  | 43 => .plus
  | 42 => .star
  | 95 => .underscore
  | 35 => .hash
  | 96 => .backtick
  | 126 => .tilde
  | 94 => .caret
  | 38 => .ampersand
  | 60 => .lessThan
  | 62 => .greaterThan
  | 91 => .openBracket
  | 93 => .closeBracket
  | 123 => .openBrace
  | 125 => .closeBrace
  | 40 => .openParens
  | 41 => .closeParens
  | 58 => .colon
  | 59 => .semiColon
  | 39 => .singleQuote
  | 34 => .doubleQuote
  | 44 => .comma
  | 33 => .bang
  | 92 => .backslash
  | 37 => .percent
  | 124 => .pipe
  | _ => .word

/-- Modelled from the spec: one step of the deterministic byte-at-a-time
scanner — longest match for the character-class runs (digits, words,
whitespace, and the `.`/`-`/`=`/`/` runs), single tokens otherwise.
Context-synthesized kinds (MacroName, UriScheme, Entity, AttrRef,
Directive, TermDelimiter, CalloutNumber, DelimiterLine) are not
distinguished here; that does not affect totality, progress, or location
assignment, which are all the claims need. -/
def scanLen (rest : List Nat) (b : Nat) : TokenKind × Nat :=
  if digitByte b then (.digits, (rest.takeWhile digitByte).length)
  else if wordByte b then (.word, (rest.takeWhile wordByte).length)
  else if spaceByte b then (.whitespace, (rest.takeWhile spaceByte).length)
  else if b = 10 then (.newline, 1)
  else if b = 46 then (.dots, (rest.takeWhile (fun c => c = 46)).length)
  else if b = 45 then (.dashes, (rest.takeWhile (fun c => c = 45)).length)
  else if b = 61 then (.equalSigns, (rest.takeWhile (fun c => c = 61)).length)
  else if b = 47 then (.forwardSlashes, (rest.takeWhile (fun c => c = 47)).length)
  else (singleKind b, 1)

/-- Modelled from the spec: `SourceLexer::next_token` — `None` at end of
the source, otherwise the scanned token (location = byte positions within
this source, include_depth stamped later by the root lexer) and the
advanced scanner state. -/
def SourceLexer.nextToken (sl : SourceLexer) : Option (Token × SourceLexer) :=
  match sl.bytes.drop sl.pos with
  | [] => none
  | b :: bs =>
    let kl := scanLen (b :: bs) b
    some (⟨kl.1, String.mk (((b :: bs).take kl.2).map Char.ofNat),
            ⟨sl.pos, sl.pos + kl.2, 0⟩⟩,
          { sl with pos := sl.pos + kl.2 })

/-- `SourceLexer::is_eof`. -/
def SourceLexer.isEof (sl : SourceLexer) : Bool :=
  sl.bytes.length ≤ sl.pos

/-- `BufLoc`: the location policy of a temporary buffer. -/
inductive BufLoc where
  | repeatLoc (loc : SourceLocation)
  | offset (n : Nat)
  deriving DecidableEq, Repr

/-- Modelled from the spec: `SourceLocation::offset` (ast crate, not under
src/) — shift start and end by `n`, keeping the include depth. -/
def SourceLocation.offsetBy (loc : SourceLocation) (n : Nat) : SourceLocation :=
  ⟨loc.start + n, loc.stop + n, loc.includeDepth⟩

/-- `RootLexer`: active source index, pending next source, stack of
suspended source indices, the sources, and the optional temporary buffer
with its location policy. -/
structure RootLexer where
  idx : Nat
  nextIdx : Option Nat
  sourceStack : List Nat
  sources : List SourceLexer
  tmpBuf : Option (SourceLexer × BufLoc)

/-- The source at an index (the Rust code indexes `self.sources[idx]`;
well-formed states keep every used index in bounds). -/
def sourceAt (st : RootLexer) (i : Nat) : SourceLexer :=
  st.sources.getD i default

/-- `RootLexer::push_source`: append a trailing newline byte when the given
bytes do not end with one (matching asciidoctor's line-array include
processor), append the new source, and mark it as next; the active source
and its position are untouched. -/
def push_source (st : RootLexer) (file : SourceFile) (leveloffset : Int)
    (maxDepth : Option Nat) (srcBytes : List Nat) : RootLexer :=
  let withNl := if srcBytes.getLast? ≠ some 10 then srcBytes ++ [10] else srcBytes
  { st with
    sources := st.sources ++ [⟨withNl, 0, 0, leveloffset, maxDepth, file⟩],
    nextIdx := some st.sources.length }

/-- `RootLexer::set_tmp_buf`: install a micro-source (lexed from the given
string) in front of the stream, with a location policy. Bytes are modelled
as the string's character codes. -/
def set_tmp_buf (st : RootLexer) (buf : String) (loc : BufLoc) : RootLexer :=
  { st with tmpBuf := some (⟨buf.toList.map Char.toNat, 0, 0, 0, none, .tmp⟩, loc) }

/-- `RootLexer::maybe_advance_source`: when a next source is pending, push
the active index on the stack and switch to it. -/
def maybeAdvance (st : RootLexer) : RootLexer :=
  match st.nextIdx with
  | none => st
  | some n =>
    { st with sourceStack := st.sourceStack ++ [st.idx], idx := n, nextIdx := none }

/-- Store an updated source lexer back at its index. -/
def setSource (st : RootLexer) (i : Nat) (sl : SourceLexer) : RootLexer :=
  { st with sources := st.sources.set i sl }

/-- The Eof token `token(TokenKind::Eof, "", self.loc())`. -/
def eofToken (st : RootLexer) : Token :=
  ⟨.eof, "", ⟨(sourceAt st st.idx).pos, (sourceAt st st.idx).pos, 0⟩⟩

/-- The non-tmp-buffer path of `RootLexer::next_token`, after
`maybe_advance_source` has run: draw a token from the active source,
stamping its include depth; when the active source is exhausted, pop the
source stack and retry, and produce the Eof token once the stack is empty.
(The Rust recursion re-enters `next_token` whole; an exhausted tmp buffer
yields no token and `next_idx` was already taken, so that re-entry
coincides with this loop.) -/
def nextTokenGo (st : RootLexer) : Token × RootLexer :=
  match (sourceAt st st.idx).nextToken with
  | some (tok, sl') =>
    ({ tok with loc := { tok.loc with includeDepth := st.idx } },
     setSource st st.idx sl')
  | none =>
    match h : st.sourceStack.getLast? with
    | none => (eofToken st, st)
    | some prev =>
      nextTokenGo { st with idx := prev, sourceStack := st.sourceStack.dropLast }
  termination_by st.sourceStack.length
  decreasing_by
    simp only [List.length_dropLast]
    have hne : st.sourceStack ≠ [] := by
      intro hnil
      rw [hnil] at h
      cases h
    have := List.length_pos.mpr hne
    omega

/-- `RootLexer::next_token`: tokens are drawn from the temporary buffer
first — with their location replaced (`Repeat`) or shifted (`Offset`) per
the buffer's policy, and the buffer dropped once exhausted — and otherwise
from the source stack. -/
def next_token (st : RootLexer) : Token × RootLexer :=
  match st.tmpBuf with
  | some (bufLexer, bufLoc) =>
    match bufLexer.nextToken with
    | some (tok0, bufLexer') =>
      let tok := match bufLoc with
        | .repeatLoc l => { tok0 with loc := l }
        | .offset n => { tok0 with loc := tok0.loc.offsetBy n }
      if bufLexer'.isEof then (tok, { st with tmpBuf := none })
      else (tok, { st with tmpBuf := some (bufLexer', bufLoc) })
    | none => nextTokenGo (maybeAdvance st)
  | none => nextTokenGo (maybeAdvance st)

/-! ## Claim C10 -/

/-- C10: `push_source` appends a trailing newline byte exactly when the
given bytes do not already end in one, so the installed source always ends
with a newline; bytes already ending in a newline are installed unchanged;
and the call leaves the active source index, all existing sources (hence
the active source's position), the source stack, and the tmp buffer
untouched, only marking the new source as next. -/
theorem push_source_props (st : RootLexer) (file : SourceFile)
    (leveloffset : Int) (maxDepth : Option Nat) (srcBytes : List Nat) :
    (srcBytes.getLast? ≠ some 10 →
      (push_source st file leveloffset maxDepth srcBytes).sources.getD
          st.sources.length default
        = ⟨srcBytes ++ [10], 0, 0, leveloffset, maxDepth, file⟩)
    ∧ (srcBytes.getLast? = some 10 →
      (push_source st file leveloffset maxDepth srcBytes).sources.getD
          st.sources.length default
        = ⟨srcBytes, 0, 0, leveloffset, maxDepth, file⟩)
    ∧ ((push_source st file leveloffset maxDepth srcBytes).sources.getD
          st.sources.length default).bytes.getLast? = some 10
    ∧ (push_source st file leveloffset maxDepth srcBytes).idx = st.idx
    ∧ (push_source st file leveloffset maxDepth srcBytes).sources.take
        st.sources.length = st.sources
    ∧ (push_source st file leveloffset maxDepth srcBytes).nextIdx
        = some st.sources.length
    ∧ (push_source st file leveloffset maxDepth srcBytes).sourceStack
        = st.sourceStack
    ∧ (push_source st file leveloffset maxDepth srcBytes).tmpBuf = st.tmpBuf := by
  have hget : ∀ bs : List Nat,
      (st.sources ++ [(⟨bs, 0, 0, leveloffset, maxDepth, file⟩ : SourceLexer)]).getD
          st.sources.length default
        = ⟨bs, 0, 0, leveloffset, maxDepth, file⟩ := by
    intro bs
    simp [List.getD]
  refine ⟨?_, ?_, ?_, rfl, ?_, rfl, rfl, rfl⟩
  · intro h
    unfold push_source
    simp only [if_pos h]
    exact hget (srcBytes ++ [10])
  · intro h
    unfold push_source
    rw [if_neg (by simp [h])]
    exact hget srcBytes
  · unfold push_source
    by_cases h : srcBytes.getLast? = some 10
    · rw [if_neg (by simp [h])]
      rw [hget srcBytes]
      exact h
    · simp only [if_pos h]
      rw [hget (srcBytes ++ [10])]
      simp
  · unfold push_source
    simp

/-- Witness for C10: pushing bytes `"ab"` (no trailing newline) installs
`"ab\n"`, and pushing `"a\n"` installs it unchanged; the active index and
existing sources are untouched in both cases. -/
theorem push_source_props_witness :
    (push_source ⟨0, none, [], [default], none⟩ (.src "inc.adoc") 0 none
        [97, 98]).sources.getD 1 default
      = ⟨[97, 98, 10], 0, 0, 0, none, .src "inc.adoc"⟩
    ∧ (push_source ⟨0, none, [], [default], none⟩ (.src "inc.adoc") 0 none
        [97, 10]).sources.getD 1 default
      = ⟨[97, 10], 0, 0, 0, none, .src "inc.adoc"⟩
    ∧ (push_source ⟨0, none, [], [default], none⟩ (.src "inc.adoc") 0 none
        [97, 98]).idx = 0
    ∧ (push_source ⟨0, none, [], [default], none⟩ (.src "inc.adoc") 0 none
        [97, 98]).nextIdx = some 1 := by
  have h1 := push_source_props ⟨0, none, [], [default], none⟩ (.src "inc.adoc")
    0 none [97, 98]
  have h2 := push_source_props ⟨0, none, [], [default], none⟩ (.src "inc.adoc")
    0 none [97, 10]
  exact ⟨h1.1 (by decide), h2.2.1 (by decide), h1.2.2.2.1, h1.2.2.2.2.2.1⟩

/-! ## Claim C6 -/

/-- C6: a token drawn from an installed temporary buffer gets its location
from the buffer's policy — under `Repeat(loc)` the location is exactly
`loc` (hence the same for every token of the buffer), under `Offset(n)` it
is the lexed location shifted by `n` — while with no (live) temporary
buffer a token drawn from the active source keeps its lexed location, only
stamped with the active source index as include depth. -/
theorem next_token_tmp_buf_policy (st : RootLexer) (sl sl' : SourceLexer)
    (l : SourceLocation) (n : Nat) (tok : Token) :
    (st.tmpBuf = some (sl, .repeatLoc l) → sl.nextToken = some (tok, sl') →
      (next_token st).1 = { tok with loc := l })
    ∧ (st.tmpBuf = some (sl, .offset n) → sl.nextToken = some (tok, sl') →
      (next_token st).1 = { tok with loc := tok.loc.offsetBy n })
    ∧ (st.tmpBuf = none → st.nextIdx = none →
      (sourceAt st st.idx).nextToken = some (tok, sl') →
      (next_token st).1
        = { tok with loc := { tok.loc with includeDepth := st.idx } }) := by
  refine ⟨?_, ?_, ?_⟩
  · intro htmp hnext
    unfold next_token
    rw [htmp]
    dsimp only
    rw [hnext]
    dsimp only
    split <;> rfl
  · intro htmp hnext
    unfold next_token
    rw [htmp]
    dsimp only
    rw [hnext]
    dsimp only
    split <;> rfl
  · intro htmp hni hnext
    unfold next_token
    rw [htmp]
    have hadv : maybeAdvance st = st := by
      unfold maybeAdvance
      rw [hni]
    dsimp only
    rw [hadv, nextTokenGo, hnext]

/-- Witness for C6: a tmp buffer lexing `"x"` under `Repeat((5,9))` yields
its token at location `(5,9)`; under `Offset(7)` the lexed location `(0,1)`
becomes `(7,8)`; and with no tmp buffer, the second source's token is
stamped with include depth 1 and its lexed span `(0,2)`. -/
theorem next_token_tmp_buf_policy_witness :
    (next_token ⟨0, none, [], [default],
        some (⟨[120], 0, 0, 0, none, .tmp⟩, .repeatLoc ⟨5, 9, 0⟩)⟩).1
      = ⟨.word, "x", ⟨5, 9, 0⟩⟩
    ∧ (next_token ⟨0, none, [], [default],
        some (⟨[120], 0, 0, 0, none, .tmp⟩, .offset 7)⟩).1
      = ⟨.word, "x", ⟨7, 8, 0⟩⟩
    ∧ (next_token ⟨1, none, [0], [default, ⟨[97, 98], 0, 0, 0, none, .src "b"⟩],
        none⟩).1
      = ⟨.word, "ab", ⟨0, 2, 1⟩⟩ := by
  refine ⟨?_, ?_, ?_⟩
  · have h := (next_token_tmp_buf_policy
      ⟨0, none, [], [default],
        some (⟨[120], 0, 0, 0, none, .tmp⟩, .repeatLoc ⟨5, 9, 0⟩)⟩
      ⟨[120], 0, 0, 0, none, .tmp⟩ ⟨[120], 1, 0, 0, none, .tmp⟩
      ⟨5, 9, 0⟩ 0 ⟨.word, "x", ⟨0, 1, 0⟩⟩).1 rfl rfl
    exact h.trans rfl
  · have h := (next_token_tmp_buf_policy
      ⟨0, none, [], [default],
        some (⟨[120], 0, 0, 0, none, .tmp⟩, .offset 7)⟩
      ⟨[120], 0, 0, 0, none, .tmp⟩ ⟨[120], 1, 0, 0, none, .tmp⟩
      ⟨5, 9, 0⟩ 7 ⟨.word, "x", ⟨0, 1, 0⟩⟩).2.1 rfl rfl
    exact h.trans rfl
  · have h := (next_token_tmp_buf_policy
      ⟨1, none, [0], [default, ⟨[97, 98], 0, 0, 0, none, .src "b"⟩], none⟩
      default ⟨[97, 98], 2, 0, 0, none, .src "b"⟩
      ⟨5, 9, 0⟩ 0 ⟨.word, "ab", ⟨0, 2, 0⟩⟩).2.2 rfl rfl rfl
    exact h.trans rfl

/-! ## Claim C5 -/

theorem isEof_nextToken_none {sl : SourceLexer} (h : sl.isEof = true) :
    sl.nextToken = none := by
  unfold SourceLexer.nextToken
  have hle : sl.bytes.length ≤ sl.pos := by
    unfold SourceLexer.isEof at h
    exact of_decide_eq_true h
  rw [List.drop_eq_nil_of_le hle]

/-- The source-stack loop returns the Eof token when every source is
exhausted (well-formed indices assumed). -/
theorem nextTokenGo_eof (n : Nat) : ∀ st : RootLexer,
    st.sourceStack.length ≤ n →
    st.idx < st.sources.length →
    (∀ j ∈ st.sourceStack, j < st.sources.length) →
    (∀ sl ∈ st.sources, sl.isEof = true) →
    (nextTokenGo st).1.kind = .eof := by
  induction n with
  | zero =>
    intro st hlen hidx hstack hsrc
    have hempty : st.sourceStack = [] := List.length_eq_zero.mp (by omega)
    have hmem : sourceAt st st.idx ∈ st.sources := by
      unfold sourceAt
      rw [List.getD_eq_getElem st.sources default hidx]
      exact List.getElem_mem hidx
    rw [nextTokenGo, isEof_nextToken_none (hsrc _ hmem), hempty]
    rfl
  | succ n ih =>
    intro st hlen hidx hstack hsrc
    have hmem : sourceAt st st.idx ∈ st.sources := by
      unfold sourceAt
      rw [List.getD_eq_getElem st.sources default hidx]
      exact List.getElem_mem hidx
    rw [nextTokenGo, isEof_nextToken_none (hsrc _ hmem)]
    dsimp only
    split
    · rfl
    · rename_i prev hlast
      have hne : st.sourceStack ≠ [] := by
        intro hnil
        rw [hnil] at hlast
        cases hlast
      have hpos : 0 < st.sourceStack.length := List.length_pos.mpr hne
      exact ih _ (by simp [List.length_dropLast]; omega)
        (hstack prev (getLast?_mem' hlast))
        (fun j hj => hstack j ((List.dropLast_sublist _).subset hj)) hsrc

/-- C5: the root lexer's `next_token` is a total function — by construction
it always returns a token and never an error — and once the temporary
buffer and every source on the stack are exhausted, the returned token is
the Eof token. (The byte scanner is spec-modelled; well-formedness keeps
every stored source index in bounds, matching the Rust invariant behind its
unchecked `self.sources[i]` indexing.) -/
theorem next_token_eof_when_exhausted (st : RootLexer)
    (hidx : st.idx < st.sources.length)
    (hstack : ∀ j ∈ st.sourceStack, j < st.sources.length)
    (hnext : ∀ m, st.nextIdx = some m → m < st.sources.length)
    (htmp : ∀ sl bl, st.tmpBuf = some (sl, bl) → sl.isEof = true)
    (hsrc : ∀ sl ∈ st.sources, sl.isEof = true) :
    (next_token st).1.kind = .eof := by
  have hgo : (nextTokenGo (maybeAdvance st)).1.kind = .eof := by
    unfold maybeAdvance
    cases hni : st.nextIdx with
    | none =>
      exact nextTokenGo_eof st.sourceStack.length st (le_refl _) hidx hstack hsrc
    | some m =>
      refine nextTokenGo_eof (st.sourceStack.length + 1) _ (by simp) ?_ ?_ hsrc
      · exact hnext m hni
      · intro j hj
        simp at hj
        rcases hj with hj | hj
        · exact hstack j hj
        · rw [hj]; exact hidx
  unfold next_token
  cases htm : st.tmpBuf with
  | none => exact hgo
  | some p =>
    obtain ⟨sl, bl⟩ := p
    dsimp only
    rw [isEof_nextToken_none (htmp sl bl htm)]
    exact hgo

/-- Witness for C5: a lexer whose single source `"a\n"` is fully consumed
(and no tmp buffer) yields the Eof token. -/
theorem next_token_eof_when_exhausted_witness :
    (next_token ⟨0, none, [], [⟨[97, 10], 2, 0, 0, none, .src "main.adoc"⟩],
        none⟩).1.kind = .eof := by
  refine next_token_eof_when_exhausted _ (by decide) ?_ ?_ ?_ ?_
  · intro j hj
    cases hj
  · intro m hm
    cases hm
  · intro sl bl h
    cases h
  · intro sl hm
    rcases hm with _ | ⟨_, hm⟩
    · decide
    · cases hm

/-! ## Inline parser (src/parser/src/tasks/parse_inlines.rs)

`parse_inlines_until` embedded as a fueled function. A block
(`ContiguousLines`) is the list of its remaining lines, front-consumed;
the text accumulator is the accumulated string (source-location
bookkeeping is dropped — no guard reads it). The parser context's
substitution policy is threaded explicitly: each function takes the
snapshot `subs` taken at function entry (`let subs = self.ctx.subs`) and
the current value `cur` of `self.ctx.subs`, and returns the inlines, the
remaining block, and the final `self.ctx.subs` value. -/

/-- The six-flag substitution policy. -/
structure Substitutions where
  specialChars : Bool
  attrRefs : Bool
  charReplacement : Bool
  macros : Bool
  postReplacement : Bool
  inlineFormatting : Bool
  deriving DecidableEq, Repr

/-- `Substitutions::all()`. -/
def Substitutions.all : Substitutions := ⟨true, true, true, true, true, true⟩

/-- `Substitutions::none()`. -/
def Substitutions.none : Substitutions := ⟨false, false, false, false, false, false⟩

/-- Kind-only token specs for a kind list (the `&[TokenKind]` overloads). -/
def specsOfKinds (ks : List TokenKind) : List TokenSpec :=
  ks.map TokenSpec.kind

def lineContainsK (line : Line) (ks : List TokenKind) : Bool :=
  contains_seq line (specsOfKinds ks)

/-- `ContiguousLines::contains_seq`: any line contains the sequence. -/
def blockContainsK (block : List Line) (ks : List TokenKind) : Bool :=
  block.any (fun l => lineContainsK l ks)

/-- `contains_seq(seq, line, block)` from parse_inlines.rs. -/
def containsSeqB (ks : List TokenKind) (line : Line) (block : List Line) : Bool :=
  lineContainsK line ks || blockContainsK block ks

def lineTerminates (line : Line) (ks : List TokenKind) : Bool :=
  terminates_constrained line (specsOfKinds ks)

/-- `ContiguousLines::terminates_constrained`: any line passes the test. -/
def blockTerminates (block : List Line) (ks : List TokenKind) : Bool :=
  block.any (fun l => lineTerminates l ks)

/-- `starts_constrained` from parse_inlines.rs: the token is the last stop
kind, and the line or a following line terminates the constrained span. -/
def startsConstrained (ks : List TokenKind) (t : Token) (line : Line)
    (block : List Line) : Bool :=
  (match ks.getLast? with
   | some k => t.kind = k
   | none => false)
  && (lineTerminates line ks || blockTerminates block ks)

/-- `starts_unconstrained` from parse_inlines.rs. -/
def startsUnconstrained (k : TokenKind) (t : Token) (line : Line)
    (block : List Line) : Bool :=
  t.kind = k && current_is line k && containsSeqB [k, k] line block

/-- Modelled from the spec: `Token::is_url_scheme` (token.rs is not under
src/) — true for a `UriScheme` token. -/
def isUrlSchemeTok (t : Token) : Bool :=
  t.kind = .uriScheme

/-- `line.current_token().is_url_scheme()`. -/
def currentIsUrlScheme (line : Line) : Bool :=
  match line with
  | [] => false
  | t :: _ => isUrlSchemeTok t

/-- Modelled from the spec: `Token::to_url_scheme` — the scheme named by a
`UriScheme`/`MacroName` lexeme. -/
def toUrlScheme (t : Token) : Option UrlScheme :=
  if t.lexeme = "https:" ∨ t.lexeme = "https://" then some .https
  else if t.lexeme = "http:" ∨ t.lexeme = "http://" then some .http
  else if t.lexeme = "ftp:" ∨ t.lexeme = "ftp://" then some .ftp
  else if t.lexeme = "irc:" ∨ t.lexeme = "irc://" then some .irc
  else if t.lexeme = "file:" ∨ t.lexeme = "file://" then some .file
  else if t.lexeme = "mailto:" then some .mailto
  else none

/-- Modelled from the spec: the `EMAIL_RE` check, simplified to
`local@domain` with a dot in the domain; the claims below never reach a
`MaybeEmail` token, so only this guard's totality matters. -/
def emailReMatch (s : String) : Bool :=
  match s.toList.findIdx? (fun c => c = '@') with
  | none => false
  | some i =>
    0 < i ∧ i + 1 < s.toList.length ∧ (s.toList.drop (i + 1)).contains '.'

/-- `text.ends_with(char::is_whitespace)`, on the ASCII whitespace the
lexer produces. -/
def endsWithWhitespace (s : String) : Bool :=
  match s.toList.getLast? with
  | some c => c = ' ' ∨ c = '\t' ∨ c = '\n'
  | none => false

/-- `line.src.starts_with("//")`, with `src` modelled as the remaining
lexemes. -/
def lineSrcStartsSlashes (line : Line) : Bool :=
  (lexConcat line).toList.take 2 = ['/', '/']

mutual

/-- `parse_inlines_until(block, stop_tokens)`: early-return for an empty
block, else run the line loop with a fresh accumulator; the snapshot and
the current policy both start at the entry value `c0`. -/
def piMain (fuel : Nat) (c0 : Substitutions) (block : List Line)
    (stop : List TokenKind) : Option (List Inline × List Line × Substitutions) :=
  match fuel with
  | 0 => none
  | fuel + 1 =>
    if block.isEmpty then some ([], block, c0)
    else piLines fuel c0 c0 block stop "" []
  termination_by structural fuel

/-- The `while let Some(line) = block.consume_current()` loop: at the end
of the block, commit the accumulator and return. -/
def piLines (fuel : Nat) (subs cur : Substitutions) (block : List Line)
    (stop : List TokenKind) (text : String) (inlines : List Inline) :
    Option (List Inline × List Line × Substitutions) :=
  match fuel with
  | 0 => none
  | fuel + 1 =>
    match block with
    | [] => some (commit_inlines text inlines, [], cur)
    | line :: rest => piToks fuel subs cur line rest stop text inlines
  termination_by structural fuel

/-- One iteration of the token loop: the stop-sequence check, the
end-of-line handling, then the dispatch on the consumed token — the match
arms of parse_inlines.rs in source order. Arms whose helpers are not under
src/ (the `MacroName` macro bodies with `parse_attr_list`, and the
`[attrs]#…#` arm with `parse_formatted_text_attr_list`) are modelled as
failure (`none`), never as a wrong value; no claim below reaches them. -/
def piToks (fuel : Nat) (subs cur : Substitutions) (line : Line)
    (block : List Line) (stop : List TokenKind) (text : String)
    (inlines : List Inline) :
    Option (List Inline × List Line × Substitutions) :=
  match fuel with
  | 0 => none
  | fuel + 1 =>
    if starts_with_seq line (specsOfKinds stop) then
      if (line.drop stop.length).isEmpty then
        some (commit_inlines text inlines, block, cur)
      else some (commit_inlines text inlines, line.drop stop.length :: block, cur)
    else
      match line with
      | [] =>
        if block.isEmpty then piLines fuel subs cur block stop text inlines
        else
          piLines fuel subs cur block stop ""
            (commit_inlines text inlines ++ [Inline.joiningNewline])
      | t :: line1 =>
        if t.kind == TokenKind.macroName && subs.macros && continues_inline_macro line1 then
          none
        else if t.kind == TokenKind.lessThan && subs.macros && currentIsUrlScheme line1
            && is_continuous_thru line1 .greaterThan then
          armLinkAngle fuel subs cur line1 block stop text inlines
        else if t.kind == TokenKind.maybeEmail && subs.macros && emailReMatch t.lexeme then
          piToks fuel subs cur line1 block stop ""
            (commit_inlines text inlines ++ [Inline.link .mailto t.lexeme])
        else if t.kind == TokenKind.underscore && subs.inlineFormatting
            && startsConstrained [.underscore] t line1 block then
          parseSpanK fuel subs cur Inline.italic [.underscore] line1 block stop
            text inlines
        else if t.kind == TokenKind.underscore && subs.inlineFormatting
            && startsUnconstrained .underscore t line1 block then
          parseSpanK fuel subs cur Inline.italic [.underscore, .underscore]
            (line1.drop 1) block stop text inlines
        else if t.kind == TokenKind.star && subs.inlineFormatting
            && startsConstrained [.star] t line1 block then
          parseSpanK fuel subs cur Inline.bold [.star] line1 block stop text inlines
        else if t.kind == TokenKind.star && subs.inlineFormatting
            && startsUnconstrained .star t line1 block then
          parseSpanK fuel subs cur Inline.bold [.star, .star] (line1.drop 1)
            block stop text inlines
        else if t.kind == TokenKind.openBracket && subs.inlineFormatting
            && lineContainsK line1 [.closeBracket, .hash] then
          none
        else if t.kind == TokenKind.backtick && subs.inlineFormatting
            && current_is line1 .plus && containsSeqB [.plus, .backtick] line1 block then
          armLitMono fuel subs cur line1 block stop text inlines
        else if t.kind == TokenKind.caret && subs.inlineFormatting
            && is_continuous_thru line1 .caret then
          parseSpanK fuel subs cur Inline.superscript [.caret] line1 block stop
            text inlines
        else if t.kind == TokenKind.doubleQuote && subs.inlineFormatting
            && current_is line1 .backtick
            && startsConstrained [.backtick, .doubleQuote] t line1 block then
          parseSpanK fuel subs cur (Inline.quoted .double)
            [.backtick, .doubleQuote] (line1.drop 1) block stop text inlines
        else if t.kind == TokenKind.singleQuote && subs.inlineFormatting
            && current_is line1 .backtick
            && startsConstrained [.backtick, .singleQuote] t line1 block then
          parseSpanK fuel subs cur (Inline.quoted .single)
            [.backtick, .singleQuote] (line1.drop 1) block stop text inlines
        else if t.kind == TokenKind.tilde && subs.inlineFormatting
            && is_continuous_thru line1 .tilde then
          parseSpanK fuel subs cur Inline.subscript [.tilde] line1 block stop
            text inlines
        else if t.kind == TokenKind.backtick && subs.inlineFormatting
            && current_is line1 .doubleQuote then
          piLines fuel subs cur ((line1.drop 1) :: block) stop ""
            (commit_inlines text inlines ++ [Inline.curly .rightDouble])
        else if t.kind == TokenKind.doubleQuote && subs.inlineFormatting
            && current_is line1 .backtick then
          piLines fuel subs cur ((line1.drop 1) :: block) stop ""
            (commit_inlines text inlines ++ [Inline.curly .leftDouble])
        else if t.kind == TokenKind.backtick && subs.inlineFormatting
            && current_is line1 .singleQuote then
          piLines fuel subs cur ((line1.drop 1) :: block) stop ""
            (commit_inlines text inlines ++ [Inline.curly .rightSingle])
        else if t.kind == TokenKind.singleQuote && subs.inlineFormatting
            && current_is line1 .backtick then
          piLines fuel subs cur ((line1.drop 1) :: block) stop ""
            (commit_inlines text inlines ++ [Inline.curly .leftSingle])
        else if t.kind == TokenKind.backtick && subs.inlineFormatting
            && startsConstrained [.backtick] t line1 block then
          parseSpanK fuel subs cur Inline.mono [.backtick] line1 block stop
            text inlines
        else if t.kind == TokenKind.backtick && subs.inlineFormatting
            && startsUnconstrained .backtick t line1 block then
          parseSpanK fuel subs cur Inline.mono [.backtick, .backtick]
            (line1.drop 1) block stop text inlines
        else if t.kind == TokenKind.hash && subs.inlineFormatting
            && containsSeqB [.hash] line1 block then
          parseSpanK fuel subs cur Inline.highlight [.hash] line1 block stop
            text inlines
        else if t.kind == TokenKind.plus
            && starts_with_seq line1 (specsOfKinds [.plus, .plus])
            && containsSeqB [.plus, .plus, .plus] line1 block then
          passthroughK fuel subs Substitutions.none [.plus, .plus, .plus]
            (line1.drop 2) block stop text inlines
        else if t.kind == TokenKind.plus && subs.inlineFormatting && current_is line1 .plus
            && startsUnconstrained .plus t line1 block then
          passthroughK fuel subs { cur with inlineFormatting := false }
            [.plus, .plus] (line1.drop 1) block stop text inlines
        else if t.kind == TokenKind.plus && subs.inlineFormatting
            && startsConstrained [.plus] t line1 block then
          passthroughK fuel subs { cur with inlineFormatting := false }
            [.plus] line1 block stop text inlines
        else if (t.kind == TokenKind.ampersand || t.kind == TokenKind.lessThan
              || t.kind == TokenKind.greaterThan)
            && subs.specialChars then
          piToks fuel subs cur line1 block stop ""
            (commit_inlines text inlines
              ++ [Inline.specialChar
                   (if t.kind == TokenKind.ampersand then .ampersand
                    else if t.kind == TokenKind.lessThan then .lessThan
                    else .greaterThan)])
        else if t.kind == TokenKind.singleQuote && current_is line1 .word
            && subs.inlineFormatting then
          if text == "" || endsWithWhitespace text then
            piToks fuel subs cur line1 block stop (text ++ t.lexeme) inlines
          else
            piToks fuel subs cur line1 block stop ""
              (commit_inlines text inlines
                ++ [Inline.curly .legacyImplicitApostrophe])
        else if t.kind == TokenKind.whitespace && decide (1 < t.lexeme.length)
            && subs.inlineFormatting then
          piToks fuel subs cur line1 block stop ""
            (commit_inlines text inlines
              ++ [Inline.multiCharWhitespace t.lexeme])
        else if t.kind == TokenKind.backslash && subs.macros
            && (current_is line1 .maybeEmail || currentIsUrlScheme line1) then
          match line1 with
          | [] => none
          | n :: line2 =>
            piToks fuel subs cur line2 block stop n.lexeme
              (commit_inlines text inlines ++ [Inline.discarded])
        else if subs.macros && isUrlSchemeTok t && lineSrcStartsSlashes line1 then
          match toUrlScheme t with
          | none => none
          | some scheme =>
            piToks fuel subs cur (consume_url (some t) line1).2 block stop ""
              (commit_inlines text inlines
                ++ [Inline.link scheme (consume_url (some t) line1).1])
        else piToks fuel subs cur line1 block stop (text ++ t.lexeme) inlines
  termination_by structural fuel

/-- The `LessThan` auto-link arm (`<https://…>`): discard the `<`, consume
the scheme token and the URL, and discard the `>`. -/
def armLinkAngle (fuel : Nat) (subs cur : Substitutions) (line1 : Line)
    (block : List Line) (stop : List TokenKind) (text : String)
    (inlines : List Inline) :
    Option (List Inline × List Line × Substitutions) :=
  match fuel with
  | 0 => none
  | fuel + 1 =>
    match line1 with
    | [] => none
    | s :: line2 =>
      match toUrlScheme s with
      | none => none
      | some scheme =>
        match (consume_url (some s) line2).2 with
        | [] => none
        | _ :: line4 =>
          piToks fuel subs cur line4 block stop ""
            (commit_inlines text inlines
              ++ [Inline.discarded,
                  Inline.link scheme (consume_url (some s) line2).1,
                  Inline.discarded])
  termination_by structural fuel

/-- The `` `+…+` `` literal-mono arm: parse the interior with inline
formatting off, restore the snapshot policy, and demand a single `Text`
node (the Rust code panics otherwise; modelled as failure). -/
def armLitMono (fuel : Nat) (subs cur : Substitutions) (line1 : Line)
    (block : List Line) (stop : List TokenKind) (text : String)
    (inlines : List Inline) :
    Option (List Inline × List Line × Substitutions) :=
  match fuel with
  | 0 => none
  | fuel + 1 =>
    match piMain fuel { cur with inlineFormatting := false }
        ((line1.drop 1) :: block) [.plus, .backtick] with
    | none => none
    | some (inner, blockOut, _) =>
      match inner with
      | [Inline.text lit] =>
        piLines fuel subs subs blockOut stop ""
          (commit_inlines text inlines ++ [Inline.litMono lit])
      | _ => none
  termination_by structural fuel

/-- The three pass-through arms (`+++…+++`, `++…++`, `+…+`): parse the
interior under the modified policy `c'`, then continue with the snapshot
policy restored. -/
def passthroughK (fuel : Nat) (subs : Substitutions) (c' : Substitutions)
    (stopK : List TokenKind) (line : Line) (block : List Line)
    (stop : List TokenKind) (text : String) (inlines : List Inline) :
    Option (List Inline × List Line × Substitutions) :=
  match fuel with
  | 0 => none
  | fuel + 1 =>
    match piMain fuel c' (line :: block) stopK with
    | none => none
    | some (inner, blockOut, _) =>
      piLines fuel subs subs blockOut stop ""
        (commit_inlines text inlines ++ [Inline.inlinePassthrough inner])
  termination_by structural fuel

/-- `parse_constrained` / `parse_unconstrained` / the caret, tilde and
smart-quote span arms: commit the text, restore the (already adjusted)
line, parse the inner span up to the stop kinds, and push the wrapped
node; the parser context continues with whatever the nested call left. -/
def parseSpanK (fuel : Nat) (subs cur : Substitutions)
    (wrap : List Inline → Inline) (stopK : List TokenKind) (line : Line)
    (block : List Line) (stop : List TokenKind) (text : String)
    (inlines : List Inline) :
    Option (List Inline × List Line × Substitutions) :=
  match fuel with
  | 0 => none
  | fuel + 1 =>
    match piMain fuel cur (line :: block) stopK with
    | none => none
    | some (inner, blockOut, cOut) =>
      piLines fuel subs cOut blockOut stop ""
        (commit_inlines text inlines ++ [wrap inner])
  termination_by structural fuel

end

/-! ### Helper lemmas for the inline-parser claims -/

theorem starts_with_seq_nil (specs : List TokenSpec) :
    starts_with_seq [] specs = false := by
  unfold starts_with_seq has_seq_at
  split
  · rfl
  · rename_i h
    push_neg at h
    obtain ⟨h1, h2⟩ := h
    exfalso
    cases specs with
    | nil => exact h1 (by rfl)
    | cons a as => simp at h2

/-- Frame property of the whole inline parser: every successful parse
leaves `self.ctx.subs` at its entry value (every arm that modifies it
restores the snapshot, and nested parses preserve theirs inductively). -/
theorem piFrameAux : ∀ fuel : Nat,
    (∀ c0 block stop r,
      piMain fuel c0 block stop = some r → r.2.2 = c0)
    ∧ (∀ subs cur block stop text inls r,
      piLines fuel subs cur block stop text inls = some r → cur = subs →
        r.2.2 = subs)
    ∧ (∀ subs cur line block stop text inls r,
      piToks fuel subs cur line block stop text inls = some r → cur = subs →
        r.2.2 = subs)
    ∧ (∀ subs cur wrap stopK line block stop text inls r,
      parseSpanK fuel subs cur wrap stopK line block stop text inls = some r →
        cur = subs → r.2.2 = subs)
    ∧ (∀ subs cur line1 block stop text inls r,
      armLinkAngle fuel subs cur line1 block stop text inls = some r →
        cur = subs → r.2.2 = subs)
    ∧ (∀ subs cur line1 block stop text inls r,
      armLitMono fuel subs cur line1 block stop text inls = some r →
        r.2.2 = subs)
    ∧ (∀ subs c' stopK line block stop text inls r,
      passthroughK fuel subs c' stopK line block stop text inls = some r →
        r.2.2 = subs) := by
  intro fuel
  induction fuel with
  | zero =>
    exact ⟨fun _ _ _ _ h => Option.noConfusion h,
      fun _ _ _ _ _ _ _ h _ => Option.noConfusion h,
      fun _ _ _ _ _ _ _ _ h _ => Option.noConfusion h,
      fun _ _ _ _ _ _ _ _ _ _ h _ => Option.noConfusion h,
      fun _ _ _ _ _ _ _ _ h _ => Option.noConfusion h,
      fun _ _ _ _ _ _ _ _ h => Option.noConfusion h,
      fun _ _ _ _ _ _ _ _ _ h => Option.noConfusion h⟩
  | succ n ih =>
    obtain ⟨ihMain, ihLines, ihToks, ihSpan, ihAngle, ihLit, ihPass⟩ := ih
    refine ⟨?_, ?_, ?_, ?_, ?_, ?_, ?_⟩
    · intro c0 block stop r h
      rw [piMain] at h
      split at h
      · have h2 := Option.some.inj h
        subst h2
        rfl
      · exact ihLines _ _ _ _ _ _ _ h rfl
    · intro subs cur block stop text inls r h hcur
      rw [piLines.eq_def] at h
      dsimp only at h
      split at h
      · have h2 := Option.some.inj h
        subst h2
        exact hcur
      · exact ihToks _ _ _ _ _ _ _ _ h hcur
    · intro subs cur line block stop text inls r h hcur
      rw [piToks.eq_def] at h
      dsimp only at h
      by_cases hc0 : starts_with_seq line (specsOfKinds stop) = true
      case pos =>
        rw [if_pos hc0] at h
        by_cases hc0b : (line.drop stop.length).isEmpty = true
        case pos =>
          rw [if_pos hc0b] at h
          have h2 := Option.some.inj h
          subst h2
          exact hcur
        rw [if_neg hc0b] at h
        have h2 := Option.some.inj h
        subst h2
        exact hcur
      rw [if_neg hc0] at h
      cases line with
      | nil =>
        dsimp only at h
        by_cases hb : block.isEmpty = true
        case pos =>
          rw [if_pos hb] at h
          exact ihLines _ _ _ _ _ _ _ h hcur
        rw [if_neg hb] at h
        exact ihLines _ _ _ _ _ _ _ h hcur
      | cons t line1 =>
        dsimp only at h
        by_cases h1 : (t.kind == TokenKind.macroName && subs.macros
            && continues_inline_macro line1) = true
        case pos =>
          rw [if_pos h1] at h
          exact Option.noConfusion h
        rw [if_neg h1] at h
        by_cases h2 : (t.kind == TokenKind.lessThan && subs.macros
            && currentIsUrlScheme line1
            && is_continuous_thru line1 TokenKind.greaterThan) = true
        case pos =>
          rw [if_pos h2] at h
          exact ihAngle _ _ _ _ _ _ _ _ h hcur
        rw [if_neg h2] at h
        by_cases h3 : (t.kind == TokenKind.maybeEmail && subs.macros
            && emailReMatch t.lexeme) = true
        case pos =>
          rw [if_pos h3] at h
          exact ihToks _ _ _ _ _ _ _ _ h hcur
        rw [if_neg h3] at h
        by_cases h4 : (t.kind == TokenKind.underscore && subs.inlineFormatting
            && startsConstrained [TokenKind.underscore] t line1 block) = true
        case pos =>
          rw [if_pos h4] at h
          exact ihSpan _ _ _ _ _ _ _ _ _ _ h hcur
        rw [if_neg h4] at h
        by_cases h5 : (t.kind == TokenKind.underscore && subs.inlineFormatting
            && startsUnconstrained TokenKind.underscore t line1 block) = true
        case pos =>
          rw [if_pos h5] at h
          exact ihSpan _ _ _ _ _ _ _ _ _ _ h hcur
        rw [if_neg h5] at h
        by_cases h6 : (t.kind == TokenKind.star && subs.inlineFormatting
            && startsConstrained [TokenKind.star] t line1 block) = true
        case pos =>
          rw [if_pos h6] at h
          exact ihSpan _ _ _ _ _ _ _ _ _ _ h hcur
        rw [if_neg h6] at h
        by_cases h7 : (t.kind == TokenKind.star && subs.inlineFormatting
            && startsUnconstrained TokenKind.star t line1 block) = true
        case pos =>
          rw [if_pos h7] at h
          exact ihSpan _ _ _ _ _ _ _ _ _ _ h hcur
        rw [if_neg h7] at h
        by_cases h8 : (t.kind == TokenKind.openBracket && subs.inlineFormatting
            && lineContainsK line1 [TokenKind.closeBracket, TokenKind.hash]) = true
        case pos =>
          rw [if_pos h8] at h
          exact Option.noConfusion h
        rw [if_neg h8] at h
        by_cases h9 : (t.kind == TokenKind.backtick && subs.inlineFormatting
            && current_is line1 TokenKind.plus
            && containsSeqB [TokenKind.plus, TokenKind.backtick] line1 block) = true
        case pos =>
          rw [if_pos h9] at h
          exact ihLit _ _ _ _ _ _ _ _ h
        rw [if_neg h9] at h
        by_cases h10 : (t.kind == TokenKind.caret && subs.inlineFormatting
            && is_continuous_thru line1 TokenKind.caret) = true
        case pos =>
          rw [if_pos h10] at h
          exact ihSpan _ _ _ _ _ _ _ _ _ _ h hcur
        rw [if_neg h10] at h
        by_cases h11 : (t.kind == TokenKind.doubleQuote && subs.inlineFormatting
            && current_is line1 TokenKind.backtick
            && startsConstrained [TokenKind.backtick, TokenKind.doubleQuote]
              t line1 block) = true
        case pos =>
          rw [if_pos h11] at h
          exact ihSpan _ _ _ _ _ _ _ _ _ _ h hcur
        rw [if_neg h11] at h
        by_cases h12 : (t.kind == TokenKind.singleQuote && subs.inlineFormatting
            && current_is line1 TokenKind.backtick
            && startsConstrained [TokenKind.backtick, TokenKind.singleQuote]
              t line1 block) = true
        case pos =>
          rw [if_pos h12] at h
          exact ihSpan _ _ _ _ _ _ _ _ _ _ h hcur
        rw [if_neg h12] at h
        by_cases h13 : (t.kind == TokenKind.tilde && subs.inlineFormatting
            && is_continuous_thru line1 TokenKind.tilde) = true
        case pos =>
          rw [if_pos h13] at h
          exact ihSpan _ _ _ _ _ _ _ _ _ _ h hcur
        rw [if_neg h13] at h
        by_cases h14 : (t.kind == TokenKind.backtick && subs.inlineFormatting
            && current_is line1 TokenKind.doubleQuote) = true
        case pos =>
          rw [if_pos h14] at h
          exact ihLines _ _ _ _ _ _ _ h hcur
        rw [if_neg h14] at h
        by_cases h15 : (t.kind == TokenKind.doubleQuote && subs.inlineFormatting
            && current_is line1 TokenKind.backtick) = true
        case pos =>
          rw [if_pos h15] at h
          exact ihLines _ _ _ _ _ _ _ h hcur
        rw [if_neg h15] at h
        by_cases h16 : (t.kind == TokenKind.backtick && subs.inlineFormatting
            && current_is line1 TokenKind.singleQuote) = true
        case pos =>
          rw [if_pos h16] at h
          exact ihLines _ _ _ _ _ _ _ h hcur
        rw [if_neg h16] at h
        by_cases h17 : (t.kind == TokenKind.singleQuote && subs.inlineFormatting
            && current_is line1 TokenKind.backtick) = true
        case pos =>
          rw [if_pos h17] at h
          exact ihLines _ _ _ _ _ _ _ h hcur
        rw [if_neg h17] at h
        by_cases h18 : (t.kind == TokenKind.backtick && subs.inlineFormatting
            && startsConstrained [TokenKind.backtick] t line1 block) = true
        case pos =>
          rw [if_pos h18] at h
          exact ihSpan _ _ _ _ _ _ _ _ _ _ h hcur
        rw [if_neg h18] at h
        by_cases h19 : (t.kind == TokenKind.backtick && subs.inlineFormatting
            && startsUnconstrained TokenKind.backtick t line1 block) = true
        case pos =>
          rw [if_pos h19] at h
          exact ihSpan _ _ _ _ _ _ _ _ _ _ h hcur
        rw [if_neg h19] at h
        by_cases h20 : (t.kind == TokenKind.hash && subs.inlineFormatting
            && containsSeqB [TokenKind.hash] line1 block) = true
        case pos =>
          rw [if_pos h20] at h
          exact ihSpan _ _ _ _ _ _ _ _ _ _ h hcur
        rw [if_neg h20] at h
        by_cases h21 : (t.kind == TokenKind.plus
            && starts_with_seq line1 (specsOfKinds [TokenKind.plus, TokenKind.plus])
            && containsSeqB [TokenKind.plus, TokenKind.plus, TokenKind.plus]
              line1 block) = true
        case pos =>
          rw [if_pos h21] at h
          exact ihPass _ _ _ _ _ _ _ _ _ h
        rw [if_neg h21] at h
        by_cases h22 : (t.kind == TokenKind.plus && subs.inlineFormatting
            && current_is line1 TokenKind.plus
            && startsUnconstrained TokenKind.plus t line1 block) = true
        case pos =>
          rw [if_pos h22] at h
          exact ihPass _ _ _ _ _ _ _ _ _ h
        rw [if_neg h22] at h
        by_cases h23 : (t.kind == TokenKind.plus && subs.inlineFormatting
            && startsConstrained [TokenKind.plus] t line1 block) = true
        case pos =>
          rw [if_pos h23] at h
          exact ihPass _ _ _ _ _ _ _ _ _ h
        rw [if_neg h23] at h
        by_cases h24 : ((t.kind == TokenKind.ampersand
            || t.kind == TokenKind.lessThan || t.kind == TokenKind.greaterThan)
            && subs.specialChars) = true
        case pos =>
          rw [if_pos h24] at h
          exact ihToks _ _ _ _ _ _ _ _ h hcur
        rw [if_neg h24] at h
        by_cases h25 : (t.kind == TokenKind.singleQuote
            && current_is line1 TokenKind.word && subs.inlineFormatting) = true
        case pos =>
          rw [if_pos h25] at h
          by_cases h25b : (text == "" || endsWithWhitespace text) = true
          case pos =>
            rw [if_pos h25b] at h
            exact ihToks _ _ _ _ _ _ _ _ h hcur
          rw [if_neg h25b] at h
          exact ihToks _ _ _ _ _ _ _ _ h hcur
        rw [if_neg h25] at h
        by_cases h26 : (t.kind == TokenKind.whitespace
            && decide (1 < t.lexeme.length) && subs.inlineFormatting) = true
        case pos =>
          rw [if_pos h26] at h
          exact ihToks _ _ _ _ _ _ _ _ h hcur
        rw [if_neg h26] at h
        by_cases h27 : (t.kind == TokenKind.backslash && subs.macros
            && (current_is line1 TokenKind.maybeEmail
                || currentIsUrlScheme line1)) = true
        case pos =>
          rw [if_pos h27] at h
          cases line1 with
          | nil => exact Option.noConfusion h
          | cons nn line2 => exact ihToks _ _ _ _ _ _ _ _ h hcur
        rw [if_neg h27] at h
        by_cases h28 : (subs.macros && isUrlSchemeTok t
            && lineSrcStartsSlashes line1) = true
        case pos =>
          rw [if_pos h28] at h
          cases htu : toUrlScheme t with
          | none =>
            rw [htu] at h
            exact Option.noConfusion h
          | some scheme =>
            rw [htu] at h
            exact ihToks _ _ _ _ _ _ _ _ h hcur
        rw [if_neg h28] at h
        exact ihToks _ _ _ _ _ _ _ _ h hcur
    · intro subs cur wrap stopK line block stop text inls r h hcur
      rw [parseSpanK] at h
      split at h
      · exact Option.noConfusion h
      · rename_i inner blockOut cOut heq
        have hc : cOut = cur := ihMain _ _ _ _ heq
        exact ihLines _ _ _ _ _ _ _ h (hc.trans hcur)
    · intro subs cur line1 block stop text inls r h hcur
      rw [armLinkAngle.eq_def] at h
      dsimp only at h
      cases line1 with
      | nil => exact Option.noConfusion h
      | cons s line2 =>
        dsimp only at h
        cases htu : toUrlScheme s with
        | none =>
          rw [htu] at h
          exact Option.noConfusion h
        | some scheme =>
          rw [htu] at h
          cases hcu : (consume_url (some s) line2).2 with
          | nil =>
            rw [hcu] at h
            exact Option.noConfusion h
          | cons g line4 =>
            rw [hcu] at h
            exact ihToks _ _ _ _ _ _ _ _ h hcur
    · intro subs cur line1 block stop text inls r h
      rw [armLitMono.eq_def] at h
      dsimp only at h
      split at h
      · exact Option.noConfusion h
      · rename_i inner blockOut cOut heq
        split at h
        · exact ihLines _ _ _ _ _ _ _ h rfl
        · exact Option.noConfusion h
    · intro subs c' stopK line block stop text inls r h
      rw [passthroughK.eq_def] at h
      dsimp only at h
      split at h
      · exact Option.noConfusion h
      · rename_i inner blockOut cOut heq
        exact ihLines _ _ _ _ _ _ _ h rfl

/-! ## Claim C8 -/

/-- C8 counterexample: parsing the two-line group `foo\nbar` — which opens
no inline span anywhere — still produces a `JoiningNewline` node between
the two `Text` nodes, instead of committing a space into the accumulator
(which would have produced the single node `Text "foo bar"`). -/
theorem no_span_still_joining_newline :
    piMain 16 Substitutions.all [[tk .word "foo"], [tk .word "bar"]] []
      = some ([Inline.text "foo", Inline.joiningNewline, Inline.text "bar"],
          [], Substitutions.all)
    ∧ [Inline.text "foo", Inline.joiningNewline, Inline.text "bar"]
        ≠ [Inline.text "foo bar"] := by
  refine ⟨rfl, ?_⟩
  intro h
  simp at h

/-- C8 (amended): whenever the inline parser reaches the end of a line
with further lines remaining — whether or not any inline span is open (the
stop-token list and the substitution state are arbitrary) — it commits the
accumulated text and emits a `JoiningNewline` node; it never commits a
space. At the end of the block's last line it just commits the text. The
concrete in-span case `foo _bar\nbaz_` yields the `JoiningNewline` inside
the italic node, matching the repository's own parser test. -/
theorem eol_emits_joining_newline :
    (∀ fuel : Nat, ∀ subs cur : Substitutions, ∀ block : List Line,
      ∀ stop : List TokenKind, ∀ text : String, ∀ inlines : List Inline,
      piToks (fuel + 1) subs cur [] block stop text inlines
        = if block.isEmpty then piLines fuel subs cur [] stop text inlines
          else piLines fuel subs cur block stop ""
            (commit_inlines text inlines ++ [Inline.joiningNewline]))
    ∧ piMain 32 Substitutions.all
        [[tk .word "foo", tk .whitespace " ", tk .underscore "_", tk .word "bar"],
         [tk .word "baz", tk .underscore "_"]] []
      = some ([Inline.text "foo ",
               Inline.italic [Inline.text "bar", Inline.joiningNewline,
                 Inline.text "baz"]], [], Substitutions.all) := by
  refine ⟨?_, rfl⟩
  intro fuel subs cur block stop text inlines
  rw [piToks, starts_with_seq_nil]
  simp
  split <;> simp_all

/-! ## Claim C9 -/

/-- C9: the substitution policy is restored after every pass-through (and
every other) region: any successful `parse_inlines_until` call returns
with `self.ctx.subs` equal to its entry value. The concrete runs
demonstrate the policies in force inside the regions: in `+_foo_+` the
constrained pass-through parses its interior with inline formatting off
(the underscores stay literal text), in `+++_<foo>&_+++ bar` the triple
pass-through parses its interior with all substitutions off (`<`, `>`, `&`
stay literal), while in `+_<foo>&_+` only inline formatting is off and
special characters are still substituted; in all runs the final policy is
the original `all()`. -/
theorem passthrough_subs_restored :
    (∀ fuel c0 block stop r,
      piMain fuel c0 block stop = some r → r.2.2 = c0)
    ∧ piMain 32 Substitutions.all
        [[tk .plus "+", tk .underscore "_", tk .word "foo", tk .underscore "_",
          tk .plus "+"]] []
      = some ([Inline.inlinePassthrough [Inline.text "_foo_"]], [],
          Substitutions.all)
    ∧ piMain 64 Substitutions.all
        [[tk .plus "+", tk .plus "+", tk .plus "+", tk .underscore "_",
          tk .lessThan "<", tk .word "foo", tk .greaterThan ">",
          tk .ampersand "&", tk .underscore "_", tk .plus "+", tk .plus "+",
          tk .plus "+", tk .whitespace " ", tk .word "bar"]] []
      = some ([Inline.inlinePassthrough [Inline.text "_<foo>&_"],
               Inline.text " bar"], [], Substitutions.all)
    ∧ piMain 32 Substitutions.all
        [[tk .plus "+", tk .underscore "_", tk .lessThan "<", tk .word "foo",
          tk .greaterThan ">", tk .ampersand "&", tk .underscore "_",
          tk .plus "+"]] []
      = some ([Inline.inlinePassthrough
                [Inline.text "_", Inline.specialChar .lessThan,
                 Inline.text "foo", Inline.specialChar .greaterThan,
                 Inline.specialChar .ampersand, Inline.text "_"]], [],
          Substitutions.all) :=
  ⟨fun fuel => (piFrameAux fuel).1, rfl, rfl, rfl⟩

/-- Witness for C9: applying the restoration property to the successful
parse of the single word `hi` recovers that the final policy equals the
initial `all()`. -/
theorem passthrough_subs_restored_witness :
    piMain 8 Substitutions.all [[tk .word "hi"]] []
      = some ([Inline.text "hi"], [], Substitutions.all)
    ∧ (([Inline.text "hi"], ([] : List Line), Substitutions.all)).2.2
        = Substitutions.all := by
  refine ⟨rfl, ?_⟩
  exact passthrough_subs_restored.1 8 Substitutions.all [[tk .word "hi"]] [] _ rfl

end Adork
